import Mathlib

/-
Verification of the ArtifactRepository content-addressable object store.

The three Rust source files (common/src/lib.rs, client/src/main.rs,
server/src/main.rs) are shallowly embedded below.  Conventions:

* Rust byte strings, &[u8] slices, file contents and path components are
  modeled as `List Nat` (named `Bytes`), each element a byte value.
  Rust `String`/`&str` values that are parsed or split are modeled by their
  UTF-8 bytes; `str::len` is a byte length in Rust, so lengths agree.
* Files and the sharded on-disk cache are modeled as an association list
  from the 128-character hex name of an object to the stored file bytes.
* The SHA-512 digest is an explicit parameter `d : Bytes → Bytes`;
  streaming a hasher over several writes is modeled as applying `d` to the
  concatenation of the written bytes.
* Fallible Rust code returns `Option`/`Except`; `unwrap`/`expect`/`assert!`
  panics are modeled as `none` at the function that panics, except where a
  claim distinguishes a panic from a returned `None`, where `PanicOr` is
  used.
-/

namespace AR

/-- Rust byte strings and slices: a list of byte values. -/
abbrev Bytes := List Nat

/-- UTF-8 bytes of an ASCII string literal (every literal in the sources is ASCII). -/
def strBytes (s : String) : Bytes := s.data.map Char.toNat

/-- Digits of n in ASCII, most significant first, by fuel-structural
recursion so that the kernel can evaluate it (fuel n is always enough). -/
def decDigitsAux : Nat → Nat → List Nat
  | 0, _ => []
  | fuel + 1, n => if n = 0 then [] else decDigitsAux fuel (n / 10) ++ [n % 10 + 48]

/-- ASCII decimal rendering of a natural number, as Rust format! produces it. -/
def decToBytes (n : Nat) : Bytes := if n = 0 then [48] else decDigitsAux n n

/-- Is the byte an ASCII decimal digit. -/
def isDigitB (b : Nat) : Bool := decide (48 ≤ b ∧ b ≤ 57)

/-- Value of a most-significant-first ASCII digit string. -/
def digitsVal (l : Bytes) : Nat := l.foldl (fun a c => a * 10 + (c - 48)) 0

/-- Rust str::parse::&lt;u64&gt; on ASCII bytes: an optional leading plus sign,
then one or more decimal digits, with the value below 2^64. -/
def parseU64 (l : Bytes) : Option Nat :=
  let body := if l.head? = some 43 then l.tail else l
  if body ≠ [] ∧ (∀ b ∈ body, isDigitB b) ∧ digitsVal body < 2 ^ 64 then
    some (digitsVal body)
  else none

/-- Lowercase hex digit for a value below 16, as the hex crate encodes. -/
def hexDigit (n : Nat) : Nat := if n < 10 then 48 + n else 87 + n

/-- hex::encode, producing lowercase ASCII hex bytes. -/
def hexEncode (bs : Bytes) : Bytes :=
  bs.flatMap (fun b => [hexDigit (b / 16), hexDigit (b % 16)])

/-- Value of one hex digit byte; the hex crate accepts both cases. -/
def hexVal (c : Nat) : Option Nat :=
  if 48 ≤ c ∧ c ≤ 57 then some (c - 48)
  else if 97 ≤ c ∧ c ≤ 102 then some (c - 87)
  else if 65 ≤ c ∧ c ≤ 70 then some (c - 55)
  else none

/-- hex::decode: pairs of hex digits; odd length or a non-hex byte fails. -/
def hexDecode : Bytes → Option Bytes
  | [] => some []
  | [_] => none
  | a :: b :: rest => do
      let ha ← hexVal a
      let hb ← hexVal b
      let r ← hexDecode rest
      pure ((ha * 16 + hb) :: r)

/-- BufRead::read_until: (bytes read including the delimiter when found,
remaining bytes). -/
def read_until (delim : Nat) : Bytes → Bytes × Bytes
  | [] => ([], [])
  | b :: rest =>
    if b = delim then ([b], rest)
    else
      let p := read_until delim rest
      (b :: p.1, p.2)

/-- str::split_once on bytes: split at the first occurrence of the separator. -/
def splitOnce (sep : Nat) : Bytes → Option (Bytes × Bytes)
  | [] => none
  | b :: rest =>
    if b = sep then some ([], rest)
    else (splitOnce sep rest).map (fun p => (b :: p.1, p.2))

/-- str::split on bytes. -/
def splitOn (sep : Nat) : Bytes → List Bytes
  | [] => [[]]
  | b :: rest =>
    if b = sep then [] :: splitOn sep rest
    else
      match splitOn sep rest with
      | [] => [[b]]
      | l :: ls => (b :: l) :: ls

/-- ASCII whitespace, the fragment of char::is_whitespace the sources can meet. -/
def isWS (b : Nat) : Bool := decide (b = 32 ∨ b = 9 ∨ b = 10 ∨ b = 13)

/-- str::trim on bytes. -/
def trimBytes (l : Bytes) : Bytes :=
  ((l.dropWhile isWS).reverse.dropWhile isWS).reverse

/-- Is the byte a lowercase hex digit (digit or lowercase letter a-f). -/
def isLowerHex (c : Nat) : Bool := decide ((48 ≤ c ∧ c ≤ 57) ∨ (97 ≤ c ∧ c ≤ 102))

/-! ## common/src/lib.rs -/
def INDEX_KEY : Bytes := strBytes ("index")

def TREE_KEY : Bytes := strBytes ("tree")

def BLOB_KEY : Bytes := strBytes ("blob")

/-- enum ObjectType. -/
inductive ObjectType where
  | blob
  | tree
  | index
deriving DecidableEq, Repr

/-- ObjectType::from_str. -/
def ObjectType.from_str (value : Bytes) : Option ObjectType :=
  if value = BLOB_KEY then some .blob
  else if value = TREE_KEY then some .tree
  else if value = INDEX_KEY then some .index
  else none

/-- ObjectType::to_str. -/
def ObjectType.to_str : ObjectType → Bytes
  | .blob => BLOB_KEY
  | .index => INDEX_KEY
  | .tree => TREE_KEY

/-- enum Mode. -/
inductive Mode where
  | tree
  | normal
  | executable
  | symbolicLink
deriving DecidableEq, Repr

/-- Mode::from_str. -/
def Mode.from_str (value : Bytes) : Option Mode :=
  if value = strBytes ("040000") then some .tree
  else if value = strBytes ("100644") then some .normal
  else if value = strBytes ("100755") then some .executable
  else if value = strBytes ("120000") then some .symbolicLink
  else none

/-- Display for Mode: the 6-character mode code. -/
def Mode.code : Mode → Bytes
  | .normal => strBytes ("100644")
  | .tree => strBytes ("040000")
  | .executable => strBytes ("100755")
  | .symbolicLink => strBytes ("120000")

/-- struct Hash: 64 raw digest bytes plus the hex string it was built from.
The Rust hash_string field is a String; it is modeled by its bytes. -/
structure Hash where
  hash : Bytes
  hash_string : Bytes
deriving DecidableEq, Repr

/-- Hash::from_string: exactly 128 bytes of text that hex-decode to 64 bytes. -/
def Hash.from_string (value : Bytes) : Option Hash :=
  if value.length ≠ 128 then none
  else
    match hexDecode value with
    | none => none
    | some h => if h.length ≠ 64 then none else some ⟨h, value⟩

/-- From&lt;&str&gt; for Hash: asserts the length is 128 and that the text hex-decodes;
`none` models the assert!/unwrap panic (a process abort, not an error value). -/
def Hash.from_str (value : Bytes) : Option Hash :=
  if value.length = 128 then
    match hexDecode value with
    | none => none
    | some h => if h.length = 64 then some ⟨h, value⟩ else none
  else none

/-- From&lt;[u8; 64]&gt; for Hash: hex::encode produces the lowercase string form. -/
def Hash.fromBytes (b : Bytes) : Hash := ⟨b, hexEncode b⟩

/-- Hash::get_parts: first 2 and remaining 126 characters of the string form. -/
def Hash.get_parts (h : Hash) : Bytes × Bytes :=
  (h.hash_string.take 2, h.hash_string.drop 2)

/-- Hash::get_path: cache_dir/dir/file as a list of path components. -/
def Hash.get_path (h : Hash) (cache_dir : List Bytes) : List Bytes :=
  cache_dir ++ [(h.get_parts).1, (h.get_parts).2]

/-- Hash::from_path, applied to the (directory-name, file-name) components:
requires a 2-character directory and 126-character file name, then From&lt;&str&gt;
on their concatenation (`none` again models the panic inside From). -/
def Hash.from_path (dir file : Bytes) : Option Hash :=
  if dir.length = 2 ∧ file.length = 126 then Hash.from_str (dir ++ file) else none

/-- read_header_from_slice. -/
def read_header_from_slice (slice : Bytes) : Option (ObjectType × Nat) := do
  let p ← splitOnce 32 slice
  let t ← ObjectType.from_str p.1
  let n ← parseU64 p.2
  pure (t, n)

/-- Outcome of code that can panic: either a panic (abort) or a value. -/
inductive PanicOr (α : Type) where
  | panic
  | ok (val : α)
deriving DecidableEq, Repr

/-- read_header_from_file on a reader holding `content`: read_until the first
NUL, then parse `vec[..vec.len() - 1]`.  When the reader is already at EOF the
slice bound underflows, which is a panic; the second component is the state of
the reader (bytes remaining) after the call. -/
def read_header_from_file (content : Bytes) :
    PanicOr (Option (ObjectType × Nat)) × Bytes :=
  let p := read_until 0 content
  if p.1 = [] then (.panic, p.2)
  else (.ok (read_header_from_slice p.1.dropLast), p.2)

/-- get_object_prefix: "&lt;kind&gt; &lt;size&gt;" followed by one NUL byte. -/
def get_object_prefix_bytes (object_type : ObjectType) (object_size : Nat) : Bytes :=
  object_type.to_str ++ [32] ++ decToBytes object_size ++ [0]

/-! ## The sharded on-disk store

A cache directory is an association list from the 128-hex-character object
name (shard directory name concatenated with file name, exactly the string
`Hash.get_path` addresses) to the stored file bytes. -/
abbrev Store := List (Bytes × Bytes)

/-- The file contents at a path, `none` when no such file exists. -/
def storeLookup : Store → Bytes → Option Bytes
  | [], _ => none
  | (k, c) :: rest, q => if q = k then some c else storeLookup rest q

/-- PathBuf::exists for an object path. -/
def storeHasKey (s : Store) (k : Bytes) : Bool := (storeLookup s k).isSome

/-- Hashed::&lt;T&gt;::write_if_not_exists: create the file only when the path
does not already exist. -/
def writeIfNotExists (s : Store) (k c : Bytes) : Store :=
  if storeHasKey s k then s else (k, c) :: s

/-! ## server/src/main.rs -/

/-- enum ErrorResult. -/
inductive ErrorResult where
  | hashDoesntMatch
  | lengthDoesntMatch
  | internalError (msg : String)
deriving DecidableEq, Repr

/-- ErrorResult::get_response: an HTTP status code and a message. -/
def ErrorResult.get_response : ErrorResult → Nat × String
  | .hashDoesntMatch => (400, ("Hash provided does not match the hash of the content"))
  | .lengthDoesntMatch => (400, ("Length provided does not match the body length"))
  | .internalError value => (500, value)

/-- The while-let loop of read_body_to_file over the body stream: the chunk
bytes written (and hashed) after the prefix, the running length total, and the
first stream error met, if any. -/
def streamChunks : List (Except String Bytes) → Bytes × Nat × Option String
  | [] => ([], 0, none)
  | .error e :: _ => ([], 0, some e)
  | .ok c :: rest =>
      let r := streamChunks rest
      (c ++ r.1, c.length + r.2.1, r.2.2)

/-- read_body_to_file: writes the reconstructed prefix and then the body
chunks to the destination file while hashing and counting them.  Returns the
final state of the destination file (`none` when it was deleted) and the
request outcome.  Hash PartialEq compares the 64 raw bytes. -/
def read_body_to_file (d : Bytes → Bytes) (hash : Hash) (object_type : ObjectType)
    (object_size : Nat) (chunks : List (Except String Bytes)) :
    Option Bytes × Except ErrorResult Unit :=
  let pre := get_object_prefix_bytes object_type object_size
  let r := streamChunks chunks
  match r.2.2 with
  | some e => (some (pre ++ r.1), .error (.internalError e))
  | none =>
      if object_size ≠ r.2.1 then (none, .error .lengthDoesntMatch)
      else if hash.hash ≠ d (pre ++ r.1) then (none, .error .hashDoesntMatch)
      else (some (pre ++ r.1), .ok ())

/-- put_object handler: path parameter, cache state, the two request headers
(each absent or present with bytes), and the body stream.  Returns the
response (Ok carries the success status code, Err a status and message) and
the cache state after the request. -/
def put_object (d : Bytes → Bytes) (state : Store) (object_id : Bytes)
    (objectTypeHeader objectSizeHeader : Option Bytes)
    (chunks : List (Except String Bytes)) : Except (Nat × String) Nat × Store :=
  match Hash.from_string object_id with
  | none => (.error (400, ("Invalid Sha512 hash")), state)
  | some hash =>
    if storeHasKey state hash.hash_string then
      (.error (200, ("Object already exists")), state)
    else
      match objectTypeHeader with
      | none => (.error (400, ("Missing Object-Type Header")), state)
      | some tv =>
        match ObjectType.from_str tv with
        | none => (.error (400, ("Invalid Object-Type Header")), state)
        | some object_type =>
          match objectSizeHeader with
          | none => (.error (400, ("Missing Object-Size Header")), state)
          | some sv =>
            match parseU64 sv with
            | none => (.error (400, ("Invalid Object-Size Header")), state)
            | some object_size =>
              match read_body_to_file d hash object_type object_size chunks with
              | (some content, .error err) =>
                  (.error err.get_response, (hash.hash_string, content) :: state)
              | (none, .error err) => (.error err.get_response, state)
              | (some content, .ok _) => (.ok 201, (hash.hash_string, content) :: state)
              | (none, .ok _) => (.ok 201, state)

/-- buf.iter().position(|v| *v == 0): index of the first NUL byte. -/
def position0 : Bytes → Option Nat
  | [] => none
  | b :: rest => if b = 0 then some 0 else (position0 rest).map (fun i => i + 1)

/-- struct TestCodec: None while still seeking the header. -/
structure TestCodec where
  st : Option (ObjectType × Nat)
deriving DecidableEq, Repr

/-- Result of one Decoder::decode call. -/
inductive DecodeRes where
  | ok (item : Option Bytes)
  | err (msg : String)
deriving DecidableEq, Repr

/-- Decoder::decode for TestCodec, on the codec state and the accumulated
read buffer: the state and buffer afterwards, and the call result. -/
def TestCodec.decode (c : TestCodec) (buf : Bytes) : TestCodec × Bytes × DecodeRes :=
  match c.st with
  | none =>
    if buf = [] then
      (c, buf, .err ("No data was avaliable to read the object header from"))
    else
      match position0 buf with
      | none => (c, buf, .err ("First file slice did not contain object header"))
      | some index =>
        match read_header_from_slice (buf.take index) with
        | none => (c, buf, .err ("Invalid object header in start of file"))
        | some value => (⟨some value⟩, buf.drop (index + 1), .err ("Not an error"))
  | some _ =>
    if buf = [] then (c, buf, .ok none)
    else (c, [], .ok (some buf))

/-- get_object handler.  File reads are modeled as delivering the whole file
to the codec as its first buffered chunk (real read chunks are 8 KiB and
every header is far smaller); after the two stream.next() calls the remaining
buffer and the rest of the file are forwarded as the body. -/
def get_object (state : Store) (object_id : Bytes) :
    Except (Nat × String) ((ObjectType × Nat) × Bytes) :=
  match Hash.from_string object_id with
  | none => .error (400, ("Invalid Sha512 hash"))
  | some hash =>
    match storeLookup state hash.hash_string with
    | none => .error (204, ("No object with this hash exists"))
    | some content =>
      let r := TestCodec.decode ⟨none⟩ content
      match r.1.st with
      | none => .error (500, ("Unable to read object header from file"))
      | some hdr => .ok (hdr, r.2.1)

/-- The decoder the amended C5 describes: a two-phase machine that, while
seeking the header, fails on an empty buffer, fails (rather than waiting for
more input) when the first buffered slice holds no NUL, and otherwise parses
the text before the first NUL as the (kind, size) header, consumes it through
the NUL, and signals the transition with the sentinel error message; in the
body phase it forwards every buffered byte unchanged, including any remainder
past the NUL kept in the buffer, and reports end of input on an empty buffer. -/
def twoPhaseDecodeSpec (c : TestCodec) (buf : Bytes) : TestCodec × Bytes × DecodeRes :=
  match c.st with
  | some _ =>
      if buf = [] then (c, buf, .ok none) else (c, [], .ok (some buf))
  | none =>
      if buf = [] then
        (c, buf, .err ("No data was avaliable to read the object header from"))
      else if (buf.filter (fun v => v == 0)) = [] then
        (c, buf, .err ("First file slice did not contain object header"))
      else
        let hdrText := buf.takeWhile (fun v => v != 0)
        match read_header_from_slice hdrText with
        | none => (c, buf, .err ("Invalid object header in start of file"))
        | some value =>
            (⟨some value⟩, buf.drop (hdrText.length + 1), .err ("Not an error"))

/-! ## client/src/main.rs -/

/-- struct Blob: mode, name (the path component), the bytes of the file the
`file: PathBuf` field references, and the declared size. -/
structure Blob where
  mode : Mode
  path : Bytes
  fileBytes : Bytes
  size : Nat
deriving DecidableEq, Repr

/-- enum TreeObject and struct Tree: each child's Hashed wrapper is inlined
as a hash field next to the value, and the Tree held by the tree variant is
inlined as its three fields, so that the graph is one nested inductive. -/
inductive TreeObject where
  | treeO (hash : Hash) (mode : Mode) (path : Bytes) (contents : List TreeObject)
  | blobO (hash : Hash) (blob : Blob)
deriving Repr

/-- struct Tree. -/
structure Tree where
  mode : Mode
  path : Bytes
  contents : List TreeObject
deriving Repr

/-- struct Hashed&lt;T&gt;. -/
structure Hashed (α : Type) where
  inner : α
  hash : Hash

/-- Hashed::from_object: pair a value with its own get_hash result. -/
def Hashed.from_object {α : Type} (get_hash : α → Hash) (value : α) : Hashed α :=
  ⟨value, get_hash value⟩

/-- Rebuild the treeO variant from a Hash and a Tree. -/
def TreeObject.ofTree (h : Hash) (t : Tree) : TreeObject :=
  .treeO h t.mode t.path t.contents

/-- The hash field of either variant. -/
def TreeObject.hashOf : TreeObject → Hash
  | .treeO h _ _ _ => h
  | .blobO h _ => h

/-- Blob::from_path on a source file named `name` holding `content`
(size comes from the file metadata, hence equals the content length). -/
def Blob.from_path (name content : Bytes) : Blob :=
  ⟨Mode.normal, name, content, content.length⟩

/-- Blob::get_prefix. -/
def Blob.get_prefix_bytes (b : Blob) : Bytes :=
  BLOB_KEY ++ [32] ++ decToBytes b.size ++ [0]

/-- Blob::get_hash: the hasher consumes the prefix, then the file bytes in
streamed chunks. -/
def Blob.get_hash (d : Bytes → Bytes) (b : Blob) : Hash :=
  Hash.fromBytes (d (b.get_prefix_bytes ++ b.fileBytes))

/-- Blob::write_to: the created object file holds the prefix, then a copy of
the referenced file. -/
def Blob.write_to (b : Blob) : Bytes := b.get_prefix_bytes ++ b.fileBytes

/-- get_bytes_from_thing: mode code, space, name, NUL, 64 raw hash bytes. -/
def get_bytes_from_thing (mode : Mode) (path : Bytes) (h : Hash) : Bytes :=
  mode.code ++ [32] ++ path ++ [0] ++ h.hash

/-- TreeObject::to_tree_bytes. -/
def TreeObject.to_tree_bytes : TreeObject → Bytes
  | .treeO h m p _ => get_bytes_from_thing m p h
  | .blobO h b => get_bytes_from_thing b.mode b.path h

/-- Tree::get_body: the entry encodings in order. -/
def Tree.get_body (t : Tree) : Bytes :=
  t.contents.flatMap TreeObject.to_tree_bytes

/-- Tree::get_prefix. -/
def Tree.get_prefix_bytes (t : Tree) : Bytes :=
  TREE_KEY ++ [32] ++ decToBytes t.get_body.length ++ [0]

/-- Tree::get_hash. -/
def Tree.get_hash (d : Bytes → Bytes) (t : Tree) : Hash :=
  Hash.fromBytes (d (t.get_prefix_bytes ++ t.get_body))

/-- Tree::write_to. -/
def Tree.write_to (t : Tree) : Bytes := t.get_prefix_bytes ++ t.get_body

/-- struct Index; the timestamp is carried as its RFC3339 byte rendering. -/
structure Index where
  timestamp : Bytes
  tree : Hashed Tree

/-- Index::get_body. -/
def Index.get_body (i : Index) : Bytes :=
  strBytes ("timestamp: ") ++ i.timestamp ++ strBytes ("\ntree: ") ++
    i.tree.hash.hash_string

/-- Index::get_prefix. -/
def Index.get_prefix_bytes (i : Index) : Bytes :=
  INDEX_KEY ++ [32] ++ decToBytes i.get_body.length ++ [0]

/-- Index::get_hash. -/
def Index.get_hash (d : Bytes → Bytes) (i : Index) : Hash :=
  Hash.fromBytes (d (i.get_prefix_bytes ++ i.get_body))

/-- Index::write_to. -/
def Index.write_to (i : Index) : Bytes := i.get_prefix_bytes ++ i.get_body

/-- A directory entry of the source filesystem: a file with its content, or
a subdirectory with its entries in enumeration order. -/
inductive FsEntry where
  | file (name : Bytes) (content : Bytes)
  | dir (name : Bytes) (entries : List FsEntry)
deriving Repr

mutual

/-- One step of Tree::from_dir with its surrounding Hashed::from_object
calls: a file entry becomes a hashed Blob, a directory a hashed Tree. -/
def commitEntry (d : Bytes → Bytes) : FsEntry → TreeObject
  | .file name content =>
      let hb := Hashed.from_object (Blob.get_hash d) (Blob.from_path name content)
      .blobO hb.hash hb.inner
  | .dir name entries =>
      let ht := Hashed.from_object (Tree.get_hash d)
        ⟨Mode.tree, name, commitList d entries⟩
      TreeObject.ofTree ht.hash ht.inner

/-- The read_dir().map(...).collect() loop of Tree::from_dir. -/
def commitList (d : Bytes → Bytes) : List FsEntry → List TreeObject
  | [] => []
  | e :: rest => commitEntry d e :: commitList d rest

end

/-- Tree::from_dir for the directory named `name` holding `entries`. -/
def Tree.from_dir (d : Bytes → Bytes) (name : Bytes) (entries : List FsEntry) : Tree :=
  ⟨Mode.tree, name, commitList d entries⟩

/-- Index::from_path: the current Utc timestamp rendering is an explicit
argument `now`. -/
def Index.from_path (d : Bytes → Bytes) (now : Bytes) (name : Bytes)
    (entries : List FsEntry) : Index :=
  ⟨now, Hashed.from_object (Tree.get_hash d) (Tree.from_dir d name entries)⟩

mutual

/-- The writes performed by write_tree_to_folder for one object, in order:
the object file itself (named by the hash string split into 2+126), then
every child, depth first. -/
def objFiles : TreeObject → List (Bytes × Bytes)
  | .blobO h b => [(h.hash_string, b.write_to)]
  | .treeO h m p contents =>
      (h.hash_string, Tree.write_to ⟨m, p, contents⟩) :: objFilesList contents

/-- The writes for a list of children, left to right. -/
def objFilesList : List TreeObject → List (Bytes × Bytes)
  | [] => []
  | o :: rest => objFiles o ++ objFilesList rest

end

/-- The write_if_not_exists sequence for a list of (path, content) files. -/
def writeAll (s : Store) (files : List (Bytes × Bytes)) : Store :=
  files.foldl (fun s f => writeIfNotExists s f.1 f.2) s

/-- write_index_to_folder: the index file, then the tree files. -/
def write_index_to_folder (s : Store) (ih : Hash) (i : Index) : Store :=
  writeAll s ((ih.hash_string, i.write_to) ::
    objFiles (TreeObject.ofTree i.tree.hash i.tree.inner))

/-- commit_directory: hash the directory into an Index, write all objects,
and print the index hash.  Returns the printed hash and the cache state. -/
def commit_directory (d : Bytes → Bytes) (now : Bytes) (cache : Store)
    (name : Bytes) (entries : List FsEntry) : Hash × Store :=
  let index := Hashed.from_object (Index.get_hash d) (Index.from_path d now name entries)
  (index.hash, write_index_to_folder cache index.hash index.inner)

/-- cat_object: Hash::from on the argument (a panic on invalid input, modeled
by `none`), open the object file, require a valid header, emit the body. -/
def cat_object (cache : Store) (hash : Bytes) : Option Bytes := do
  let h ← Hash.from_str hash
  let content ← storeLookup cache h.hash_string
  let p := read_header_from_file content
  match p.1 with
  | .panic => none
  | .ok none => none
  | .ok (some _) => pure p.2

/-- struct CacheObject: the type and size parsed from the header, the hash
recovered from the file path, and (for the `file: PathBuf` field) the stored
file bytes. -/
structure CacheObject where
  object_type : ObjectType
  hash : Hash
  size : Nat
  fileContent : Bytes
deriving DecidableEq, Repr

/-- CacheObject::from_file on the cache file named by the 128-character key:
read up to the first NUL, pop the NUL when present, split at the first space
into type and size text, and recover the hash from the path components. -/
def CacheObject.from_file (cache : Store) (key : Bytes) : Option CacheObject := do
  let content ← storeLookup cache key
  let data0 := (read_until 0 content).1
  let data := if data0.getLast? = some 0 then data0.dropLast else data0
  let p ← splitOnce 32 data
  let object_type ← ObjectType.from_str p.1
  let size ← parseU64 p.2
  let h ← Hash.from_path (key.take 2) (key.drop 2)
  pure ⟨object_type, h, size, content⟩

/-- CacheObject::to_blob: asserts the blob type, reads the header for the
size, and keeps the path-derived hash; the Blob's file reference is the cache
file itself. -/
def CacheObject.to_blob (co : CacheObject) (mode : Mode) (path : Bytes) :
    Option (Hashed Blob) :=
  if co.object_type = ObjectType.blob then
    let p := read_header_from_file co.fileContent
    match p.1 with
    | .panic => none
    | .ok none => none
    | .ok (some hdr) => some ⟨⟨mode, path, co.fileContent, hdr.2⟩, co.hash⟩
  else none

mutual

/-- CacheObject::to_tree: asserts the tree type, skips the header, and reads
entries to the end of the file, keeping the path-derived hash.  The fuel
bounds the nesting recursion depth (bounded only by the call stack in Rust);
every panic and the invalid-object case are `none`. -/
def CacheObject.to_tree (cache : Store) (fuel : Nat) (co : CacheObject)
    (mode : Mode) (path : Bytes) : Option (Hashed Tree) :=
  match fuel with
  | 0 => none
  | fuel + 1 =>
    if co.object_type = ObjectType.tree then
      let p := read_header_from_file co.fileContent
      match p.1 with
      | .panic => none
      | .ok none => none
      | .ok (some _) => do
          let contents ← to_tree_loop cache fuel p.2
          pure ⟨⟨mode, path, contents⟩, co.hash⟩
    else none
termination_by (fuel, 0, 0)
decreasing_by
  exact Prod.Lex.left _ _ (Nat.lt_succ_self fuel)

/-- The entry loop of to_tree: mode and name up to a NUL (with the final byte
of the read dropped), 64 raw hash bytes, then the open-and-classify step of
the loop body, factored out below as rehydChild. -/
def to_tree_loop (cache : Store) (fuel : Nat) (body : Bytes) :
    Option (List TreeObject) :=
  let p := read_until 0 body
  if hv : p.1 = [] then some []
  else do
    let q ← splitOnce 32 p.1.dropLast
    let mode ← Mode.from_str q.1
    if h64 : p.2.length < 64 then none
    else do
      let obj ← rehydChild cache fuel (Hash.fromBytes (p.2.take 64)) mode q.2
      let more ← to_tree_loop cache fuel (p.2.drop 64)
      pure (obj :: more)
termination_by (fuel, body.length + 1, 0)
decreasing_by
  · exact Prod.Lex.right _ (Prod.Lex.left _ _ (Nat.succ_pos _))
  · apply Prod.Lex.right
    apply Prod.Lex.left
    have hlen : ∀ (l : Bytes),
        ((read_until 0 l).1).length + ((read_until 0 l).2).length = l.length := by
      intro l
      induction l with
      | nil => rfl
      | cons b rest ih =>
          unfold read_until
          by_cases hb : b = 0
          · simp [hb]
            omega
          · simp only [hb, if_false, List.length_cons]
            omega
    have h0 := hlen body
    have h1 : 1 ≤ (read_until 0 body).1.length := by
      cases hq : (read_until 0 body).1 with
      | nil => exact absurd hq hv
      | cons x xs => simp
    have h2 : ((read_until 0 body).2.drop 64).length ≤ (read_until 0 body).2.length := by
      rw [List.length_drop]
      omega
    omega

/-- The open-and-classify step of the to_tree loop body: open the cache file
at the child's hash, then rehydrate it as a blob or recurse as a tree. -/
def rehydChild (cache : Store) (fuel : Nat) (h : Hash) (mode : Mode)
    (path : Bytes) : Option TreeObject := do
  let co ← CacheObject.from_file cache h.hash_string
  match co.object_type with
  | ObjectType.blob =>
      Option.map (fun hb => TreeObject.blobO hb.hash hb.inner)
        (CacheObject.to_blob co mode path)
  | ObjectType.tree =>
      Option.map (fun ht => TreeObject.ofTree ht.hash ht.inner)
        (CacheObject.to_tree cache fuel co mode path)
  | ObjectType.index => none
termination_by (fuel, 0, 1)
decreasing_by
  exact Prod.Lex.right _ (Prod.Lex.right _ (Nat.lt_succ_self 0))

end

/-- HashMap lookup over insertion pairs, the later insert winning. -/
def lookupAssoc : List (Bytes × Bytes) → Bytes → Option Bytes
  | [], _ => none
  | (k, v) :: rest, q => if q = k then some v else lookupAssoc rest q

/-- CacheObject::to_index: asserts the index type, reads the body text as
key: value lines into a map, takes the timestamp and tree entries, and
rehydrates the root tree with mode Tree and an empty name.  chrono timestamp
parsing is the external library contract (to_rfc3339 output reparses) and is
not modeled beyond keeping the trimmed value. -/
def CacheObject.to_index (cache : Store) (fuel : Nat) (co : CacheObject) :
    Option (Hashed Index) :=
  if co.object_type = ObjectType.index then do
    let string_data := (read_until 0 co.fileContent).2
    let lines := splitOn 10 string_data
    let pairs ← lines.mapM
      (fun line => (splitOnce 58 line).map (fun q => (q.1, trimBytes q.2)))
    let metadata := pairs.reverse
    let ts ← lookupAssoc metadata (strBytes ("timestamp"))
    let treeHex ← lookupAssoc metadata (strBytes ("tree"))
    let tree_hash ← Hash.from_str treeHex
    let tree_object ← CacheObject.from_file cache tree_hash.hash_string
    if tree_object.object_type = ObjectType.tree then do
      let ht ← CacheObject.to_tree cache fuel tree_object Mode.tree []
      pure ⟨⟨ts, ht⟩, co.hash⟩
    else none
  else none

mutual

/-- One iteration of the write_tree loop: a tree entry becomes a created
subdirectory filled recursively; a blob entry becomes a created file holding
the cache file bytes after the (discarded, but still panicking-on-empty)
header read. -/
def writeTreeItem : TreeObject → Option FsEntry
  | .treeO _ _ p contents => (writeTreeList contents).map (fun sub => .dir p sub)
  | .blobO _ b =>
      if b.fileBytes = [] then none
      else some (.file b.path (read_until 0 b.fileBytes).2)

/-- write_tree over the contents of one tree. -/
def writeTreeList : List TreeObject → Option (List FsEntry)
  | [] => some []
  | o :: rest => do
      let e ← writeTreeItem o
      let es ← writeTreeList rest
      pure (e :: es)

end

/-- write_tree on a rehydrated tree: the directory entries materialized into
the (fresh, empty) destination directory. -/
def write_tree (t : Tree) : Option (List FsEntry) := writeTreeList t.contents

/-- restore_directory with a fresh empty destination: Hash::from on the index
argument (panics on invalid input), open and rehydrate the Index, then
materialize its tree; returns the entries created in the destination. -/
def restore_directory (cache : Store) (index : Bytes) (fuel : Nat) :
    Option (List FsEntry) := do
  let index_hash ← Hash.from_str index
  let index_cache ← CacheObject.from_file cache index_hash.hash_string
  let idx ← CacheObject.to_index cache fuel index_cache
  write_tree idx.inner.tree.inner

/-- The object file content a node stands for: exactly what write_to puts
after the path, prefix then body. -/
def TreeObject.fileOf : TreeObject → Bytes
  | .treeO _ m p contents => Tree.write_to ⟨m, p, contents⟩
  | .blobO _ b => b.write_to

mutual

/-- Every node of an object graph, the root first, depth first. -/
def nodesOf : TreeObject → List TreeObject
  | .blobO h b => [.blobO h b]
  | .treeO h m p contents => .treeO h m p contents :: nodesListOf contents

/-- Every node under a list of children. -/
def nodesListOf : List TreeObject → List TreeObject
  | [] => []
  | o :: rest => nodesOf o ++ nodesListOf rest

end

/-- Any two writes to the same path carry the same content. -/
def filesConsistent (files : List (Bytes × Bytes)) : Prop :=
  ∀ p ∈ files, ∀ q ∈ files, p.1 = q.1 → p.2 = q.2

/-- A stand-in digest for concrete witnesses: the input length followed by
the first 63 input bytes zero-padded, all reduced mod 256 (64 bytes). -/
def toyDigest (b : Bytes) : Bytes :=
  (b.length % 256) :: ((b ++ List.replicate 63 0).take 63).map (fun x => x % 256)

/-- The name recorded in a node (the path component its parent writes). -/
def TreeObject.pathOf : TreeObject → Bytes
  | .treeO _ _ p _ => p
  | .blobO _ b => b.path

/-- The mode recorded in a node. -/
def TreeObject.modeOf : TreeObject → Mode
  | .treeO _ m _ _ => m
  | .blobO _ b => b.mode

/-- The object kind a node is stored as. -/
def TreeObject.kindOf : TreeObject → ObjectType
  | .treeO _ _ _ _ => .tree
  | .blobO _ _ => .blob

/-- The length declared in a node's stored prefix. -/
def TreeObject.bodyLenOf : TreeObject → Nat
  | .treeO _ m p contents => (Tree.get_body ⟨m, p, contents⟩).length
  | .blobO _ b => b.size

/-- The body bytes of a node's stored file. -/
def TreeObject.bodyOf : TreeObject → Bytes
  | .treeO _ m p contents => Tree.get_body ⟨m, p, contents⟩
  | .blobO _ b => b.fileBytes

/-- A well-formed digest output: 64 true byte values. -/
def GoodOut (h : Bytes) : Prop := h.length = 64 ∧ ∀ x ∈ h, x < 256

/-- All files a commit writes: the index file, then the tree files. -/
def commitFiles (d : Bytes → Bytes) (now rootName : Bytes)
    (entries : List FsEntry) : List (Bytes × Bytes) :=
  ((Index.get_hash d (Index.from_path d now rootName entries)).hash_string,
      (Index.from_path d now rootName entries).write_to) ::
    objFiles (commitEntry d (.dir rootName entries))

/-- The entry with its name replaced (restore names entries after the parent
tree entry, which records the original name). -/
def FsEntry.withName : FsEntry → Bytes → FsEntry
  | .file _ c, p => .file p c
  | .dir _ es, p => .dir p es

mutual

/-- Nesting depth of a source entry (the recursion depth restore needs). -/
def depthF : FsEntry → Nat
  | .file _ _ => 0
  | .dir _ es => depthListF es + 1

/-- Greatest nesting depth in a list of entries. -/
def depthListF : List FsEntry → Nat
  | [] => 0
  | e :: rest => max (depthF e) (depthListF rest)

end

/-! ## Theorems -/

theorem digitsVal_reverse_map (L : List Nat) (a : Nat) :
    ((L.map (fun d => d + 48)).reverse).foldl (fun x c => x * 10 + (c - 48)) a =
      a * 10 ^ L.length + Nat.ofDigits 10 L := by
  induction L generalizing a with
  | nil => simp [Nat.ofDigits]
  | cons d L ih =>
      simp only [List.map_cons, List.reverse_cons, List.foldl_append, List.foldl_cons,
        List.foldl_nil, ih, Nat.ofDigits_cons, List.length_cons]
      ring_nf
      omega

theorem decDigitsAux_eq : ∀ (fuel n : Nat), n ≤ fuel →
    decDigitsAux fuel n = (Nat.digits 10 n).reverse.map (fun d => d + 48) := by
  intro fuel
  induction fuel with
  | zero =>
      intro n hn
      have h0 : n = 0 := Nat.le_zero.mp hn
      subst h0
      simp [decDigitsAux]
  | succ fuel ih =>
      intro n hn
      by_cases h0 : n = 0
      · subst h0
        simp [decDigitsAux]
      · unfold decDigitsAux
        rw [if_neg h0]
        have hdiv : n / 10 ≤ fuel := by
          have := Nat.div_lt_self (Nat.pos_of_ne_zero h0) (by norm_num : (1:Nat) < 10)
          omega
        rw [ih _ hdiv]
        rw [Nat.digits_def' (by norm_num : (1:Nat) < 10) (Nat.pos_of_ne_zero h0)]
        simp

theorem decToBytes_eq (n : Nat) :
    decToBytes n =
      if n = 0 then [48] else (Nat.digits 10 n).reverse.map (fun d => d + 48) := by
  unfold decToBytes
  by_cases h : n = 0
  · simp [h]
  · rw [if_neg h, if_neg h, decDigitsAux_eq n n (Nat.le_refl n)]

theorem digitsVal_decToBytes (n : Nat) : digitsVal (decToBytes n) = n := by
  rw [decToBytes_eq]
  unfold digitsVal
  by_cases h : n = 0
  · simp [h]
  · simp only [h, if_false]
    rw [List.map_reverse, digitsVal_reverse_map]
    simp [Nat.ofDigits_digits]

theorem decToBytes_digits {n b : Nat} (hb : b ∈ decToBytes n) : 48 ≤ b ∧ b ≤ 57 := by
  rw [decToBytes_eq] at hb
  by_cases h : n = 0
  · simp [h] at hb
    omega
  · simp only [h, if_false, List.mem_map, List.mem_reverse] at hb
    obtain ⟨d, hd, rfl⟩ := hb
    have : d < 10 := Nat.digits_lt_base (by norm_num) hd
    omega

theorem decToBytes_ne_nil (n : Nat) : decToBytes n ≠ [] := by
  rw [decToBytes_eq]
  by_cases h : n = 0
  · simp [h]
  · simp only [h, if_false]
    simp [Nat.digits_ne_nil_iff_ne_zero, h]

theorem parseU64_decToBytes {n : Nat} (h : n < 2 ^ 64) :
    parseU64 (decToBytes n) = some n := by
  have hne := decToBytes_ne_nil n
  have hdig : ∀ b ∈ decToBytes n, isDigitB b := by
    intro b hb
    have := decToBytes_digits hb
    simp [isDigitB]
    omega
  have hplus : ¬ (decToBytes n).head? = some 43 := by
    match hm : decToBytes n with
    | [] => simp
    | b :: rest =>
        simp only [List.head?_cons]
        intro hb
        injection hb with hb
        have hmem : b ∈ decToBytes n := by rw [hm]; exact List.mem_cons_self _ _
        have := decToBytes_digits hmem
        omega
  unfold parseU64
  simp only [if_neg hplus]
  rw [if_pos]
  · rw [digitsVal_decToBytes]
  · refine ⟨hne, hdig, ?_⟩
    rw [digitsVal_decToBytes]
    exact h

theorem hexEncode_nil : hexEncode [] = [] := rfl

theorem hexEncode_cons (b : Nat) (bs : Bytes) :
    hexEncode (b :: bs) = hexDigit (b / 16) :: hexDigit (b % 16) :: hexEncode bs := by
  simp [hexEncode]

theorem hexVal_hexDigit {d : Nat} (h : d < 16) : hexVal (hexDigit d) = some d := by
  unfold hexVal hexDigit
  by_cases h10 : d < 10
  · rw [if_pos h10, if_pos (by omega)]
    congr 1
    omega
  · rw [if_neg h10, if_neg (by omega), if_pos (by omega)]
    congr 1
    omega

theorem hexVal_lt_16 {c v : Nat} (h : hexVal c = some v) : v < 16 := by
  unfold hexVal at h
  by_cases h1 : 48 ≤ c ∧ c ≤ 57
  · rw [if_pos h1] at h
    injection h with h
    omega
  · rw [if_neg h1] at h
    by_cases h2 : 97 ≤ c ∧ c ≤ 102
    · rw [if_pos h2] at h
      injection h with h
      omega
    · rw [if_neg h2] at h
      by_cases h3 : 65 ≤ c ∧ c ≤ 70
      · rw [if_pos h3] at h
        injection h with h
        omega
      · rw [if_neg h3] at h
        cases h

theorem hexDecode_hexEncode {bs : Bytes} (h : ∀ x ∈ bs, x < 256) :
    hexDecode (hexEncode bs) = some bs := by
  induction bs with
  | nil => rfl
  | cons b bs ih =>
      have hb : b < 256 := h b (List.mem_cons_self _ _)
      have hdiv : b / 16 < 16 := by omega
      have hmod : b % 16 < 16 := by omega
      have hrest : hexDecode (hexEncode bs) = some bs :=
        ih (fun x hx => h x (List.mem_cons_of_mem _ hx))
      rw [hexEncode_cons]
      unfold hexDecode
      rw [hexVal_hexDigit hdiv, hexVal_hexDigit hmod]
      simp [hrest]
      omega

theorem hexEncode_length (bs : Bytes) : (hexEncode bs).length = 2 * bs.length := by
  induction bs with
  | nil => rfl
  | cons b bs ih =>
      rw [hexEncode_cons]
      simp [ih]
      omega

theorem hexDecode_length : ∀ {v bs : Bytes}, hexDecode v = some bs → v.length = 2 * bs.length
  | [], bs, h => by
      simp [hexDecode] at h
      simp [h]
  | [_], bs, h => by simp [hexDecode] at h
  | a :: b :: rest, bs, h => by
      unfold hexDecode at h
      match ha : hexVal a with
      | none => rw [ha] at h; simp at h
      | some va =>
        match hb : hexVal b with
        | none => rw [ha, hb] at h; simp at h
        | some vb =>
          match hr : hexDecode rest with
          | none => rw [ha, hb, hr] at h; simp at h
          | some r =>
              rw [ha, hb, hr] at h
              simp at h
              have := hexDecode_length hr
              simp [← h, this]
              omega

theorem hexDigit_isLowerHex {d : Nat} (h : d < 16) : isLowerHex (hexDigit d) := by
  unfold hexDigit isLowerHex
  by_cases h10 : d < 10 <;> simp [h10] <;> omega

theorem hexEncode_isLowerHex {bs : Bytes} (h : ∀ x ∈ bs, x < 256) :
    ∀ c ∈ hexEncode bs, isLowerHex c := by
  induction bs with
  | nil => simp [hexEncode]
  | cons b bs ih =>
      have hb : b < 256 := h b (List.mem_cons_self _ _)
      intro c hc
      rw [hexEncode_cons] at hc
      rcases List.mem_cons.mp hc with rfl | hc2
      · exact hexDigit_isLowerHex (by omega)
      · rcases List.mem_cons.mp hc2 with rfl | hc3
        · exact hexDigit_isLowerHex (by omega)
        · exact ih (fun x hx => h x (List.mem_cons_of_mem _ hx)) c hc3

theorem hexVal_isLowerHex_hexDigit {c v : Nat} (hc : isLowerHex c) (h : hexVal c = some v) :
    hexDigit v = c := by
  unfold isLowerHex at hc
  unfold hexVal at h
  unfold hexDigit
  by_cases h1 : 48 ≤ c ∧ c ≤ 57
  · rw [if_pos h1] at h
    injection h with h
    rw [if_pos (by omega)]
    omega
  · rw [if_neg h1] at h
    by_cases h2 : 97 ≤ c ∧ c ≤ 102
    · rw [if_pos h2] at h
      injection h with h
      rw [if_neg (by omega)]
      omega
    · rw [if_neg h2] at h
      simp at hc
      by_cases h3 : 65 ≤ c ∧ c ≤ 70
      · omega
      · rw [if_neg h3] at h
        cases h

theorem hexEncode_hexDecode : ∀ {v bs : Bytes}, hexDecode v = some bs →
    (∀ c ∈ v, isLowerHex c) → hexEncode bs = v
  | [], bs, h, _ => by
      simp [hexDecode] at h
      simp [h, hexEncode]
  | [_], bs, h, _ => by simp [hexDecode] at h
  | a :: b :: rest, bs, h, hlow => by
      unfold hexDecode at h
      match ha : hexVal a with
      | none => rw [ha] at h; simp at h
      | some va =>
        match hb : hexVal b with
        | none => rw [ha, hb] at h; simp at h
        | some vb =>
          match hr : hexDecode rest with
          | none => rw [ha, hb, hr] at h; simp at h
          | some r =>
              rw [ha, hb, hr] at h
              simp at h
              have hla : isLowerHex a := hlow a (by simp)
              have hlb : isLowerHex b := hlow b (by simp)
              have hrest : hexEncode r = rest :=
                hexEncode_hexDecode hr (fun c hc => hlow c (by simp [hc]))
              have hva16 : va < 16 := hexVal_lt_16 ha
              have hvb16 : vb < 16 := hexVal_lt_16 hb
              rw [← h, hexEncode_cons, hrest]
              have e1 : (va * 16 + vb) / 16 = va := by omega
              have e2 : (va * 16 + vb) % 16 = vb := by omega
              rw [e1, e2, hexVal_isLowerHex_hexDigit hla ha, hexVal_isLowerHex_hexDigit hlb hb]

theorem hexDecode_none_of_bad : ∀ {v : Bytes} {c : Nat}, c ∈ v → hexVal c = none →
    hexDecode v = none
  | [], c, hc, _ => by simp at hc
  | [a], _, _, _ => by simp [hexDecode]
  | a :: b :: rest, c, hc, hbad => by
      unfold hexDecode
      rcases List.mem_cons.mp hc with rfl | hc2
      · rw [hbad]
        rfl
      · rcases List.mem_cons.mp hc2 with rfl | hc3
        · rw [hbad]
          match hexVal a with
          | none => rfl
          | some _ => rfl
        · rw [hexDecode_none_of_bad hc3 hbad]
          match hexVal a with
          | none => rfl
          | some _ =>
            match hexVal b with
            | none => rfl
            | some _ => rfl

theorem read_until_no_delim {d : Nat} {l : Bytes} (h : ∀ b ∈ l, b ≠ d) :
    read_until d l = (l, []) := by
  induction l with
  | nil => rfl
  | cons b rest ih =>
      unfold read_until
      rw [if_neg (h b (List.mem_cons_self _ _))]
      rw [ih (fun x hx => h x (List.mem_cons_of_mem _ hx))]

theorem read_until_split {d : Nat} {pre rest : Bytes} (h : ∀ b ∈ pre, b ≠ d) :
    read_until d (pre ++ d :: rest) = (pre ++ [d], rest) := by
  induction pre with
  | nil => simp [read_until]
  | cons b p ih =>
      simp only [List.cons_append]
      unfold read_until
      rw [if_neg (h b (List.mem_cons_self _ _))]
      rw [ih (fun x hx => h x (List.mem_cons_of_mem _ hx))]

theorem splitOnce_none {s : Nat} {l : Bytes} (h : ∀ b ∈ l, b ≠ s) :
    splitOnce s l = none := by
  induction l with
  | nil => rfl
  | cons b rest ih =>
      unfold splitOnce
      rw [if_neg (h b (List.mem_cons_self _ _))]
      rw [ih (fun x hx => h x (List.mem_cons_of_mem _ hx))]
      rfl

theorem splitOnce_split {s : Nat} {pre rest : Bytes} (h : ∀ b ∈ pre, b ≠ s) :
    splitOnce s (pre ++ s :: rest) = some (pre, rest) := by
  induction pre with
  | nil => simp [splitOnce]
  | cons b p ih =>
      simp only [List.cons_append]
      unfold splitOnce
      rw [if_neg (h b (List.mem_cons_self _ _))]
      rw [ih (fun x hx => h x (List.mem_cons_of_mem _ hx))]
      rfl

theorem splitOn_no_sep {s : Nat} {l : Bytes} (h : ∀ b ∈ l, b ≠ s) :
    splitOn s l = [l] := by
  induction l with
  | nil => rfl
  | cons b rest ih =>
      unfold splitOn
      rw [if_neg (h b (List.mem_cons_self _ _))]
      rw [ih (fun x hx => h x (List.mem_cons_of_mem _ hx))]

theorem splitOn_single {s : Nat} {l1 l2 : Bytes} (h1 : ∀ b ∈ l1, b ≠ s)
    (h2 : ∀ b ∈ l2, b ≠ s) : splitOn s (l1 ++ s :: l2) = [l1, l2] := by
  induction l1 with
  | nil => simp [splitOn, splitOn_no_sep h2]
  | cons b p ih =>
      simp only [List.cons_append]
      unfold splitOn
      rw [if_neg (h1 b (List.mem_cons_self _ _))]
      rw [ih (fun x hx => h1 x (List.mem_cons_of_mem _ hx))]

theorem storeLookup_cons (k c q : Bytes) (s : Store) :
    storeLookup ((k, c) :: s) q = if q = k then some c else storeLookup s q := rfl

theorem storeLookup_writeIfNotExists (s : Store) (k c q : Bytes) :
    storeLookup (writeIfNotExists s k c) q =
      if q = k ∧ ¬ storeHasKey s k then some c else storeLookup s q := by
  unfold writeIfNotExists
  by_cases hk : storeHasKey s k
  · rw [if_pos hk]
    by_cases hq : q = k ∧ ¬ storeHasKey s k
    · exact absurd hk hq.2
    · rw [if_neg hq]
  · rw [if_neg hk, storeLookup_cons]
    by_cases hq : q = k
    · simp [hq, hk]
    · simp [hq]

theorem storeHasKey_mono {s : Store} {k c q : Bytes} (h : storeHasKey s q) :
    storeHasKey (writeIfNotExists s k c) q := by
  unfold storeHasKey at h ⊢
  rw [storeLookup_writeIfNotExists]
  by_cases hq : q = k ∧ ¬ storeHasKey s k
  · rw [if_pos hq]; rfl
  · rw [if_neg hq]; exact h

theorem position0_eq_none {buf : Bytes} :
    position0 buf = none ↔ ∀ b ∈ buf, b ≠ 0 := by
  induction buf with
  | nil => simp [position0]
  | cons b rest ih =>
      unfold position0
      by_cases hb : b = 0
      · simp [hb]
      · simp [hb, ih]

theorem position0_some {buf : Bytes} {i : Nat} (h : position0 buf = some i) :
    buf.take i = buf.takeWhile (fun v => v != 0) ∧
      i = (buf.takeWhile (fun v => v != 0)).length := by
  induction buf generalizing i with
  | nil => simp [position0] at h
  | cons b rest ih =>
      unfold position0 at h
      by_cases hb : b = 0
      · rw [if_pos hb] at h
        injection h with h
        subst h
        simp [hb, List.takeWhile_cons]
      · rw [if_neg hb] at h
        match hp : position0 rest with
        | none => rw [hp] at h; simp at h
        | some j =>
            rw [hp] at h
            simp at h
            subst h
            obtain ⟨h1, h2⟩ := ih hp
            have hfb : (fun v => v != 0) b = true := by simp [hb]
            constructor
            · rw [List.take_succ_cons, List.takeWhile_cons, if_pos hfb, h1]
            · rw [List.takeWhile_cons, if_pos hfb]
              simp [h2]

theorem position0_filter_ne_nil {buf : Bytes} {i : Nat} (h : position0 buf = some i) :
    ¬ buf.filter (fun v => v == 0) = [] := by
  induction buf generalizing i with
  | nil => simp [position0] at h
  | cons b rest ih =>
      unfold position0 at h
      by_cases hb : b = 0
      · simp [hb, List.filter_cons]
      · rw [if_neg hb] at h
        match hp : position0 rest with
        | none => rw [hp] at h; simp at h
        | some j =>
            intro hf
            apply ih hp
            simpa [List.filter_cons, hb] using hf

theorem filter_nil_of_all_ne {buf : Bytes} (h : ∀ b ∈ buf, b ≠ 0) :
    buf.filter (fun v => v == 0) = [] := by
  induction buf with
  | nil => rfl
  | cons b rest ih =>
      rw [List.filter_cons, if_neg (by simpa using h b (List.mem_cons_self _ _))]
      exact ih (fun x hx => h x (List.mem_cons_of_mem _ hx))

/-- C5 (amended): TestCodec::decode is the two-phase machine that parses the
header only out of the first buffered slice — erroring rather than buffering
further chunks when that slice has no NUL — and afterwards forwards every
byte, including the remainder past the NUL, unchanged. -/
theorem c5_decode_eq_two_phase (c : TestCodec) (buf : Bytes) :
    TestCodec.decode c buf = twoPhaseDecodeSpec c buf := by
  match c with
  | ⟨some v⟩ => rfl
  | ⟨none⟩ =>
      unfold TestCodec.decode twoPhaseDecodeSpec
      simp only []
      by_cases hb : buf = []
      · rw [if_pos hb, if_pos hb]
      · rw [if_neg hb, if_neg hb]
        match hp : position0 buf with
        | none =>
            have hall : ∀ b ∈ buf, b ≠ 0 := position0_eq_none.mp hp
            rw [if_pos (filter_nil_of_all_ne hall)]
        | some i =>
            obtain ⟨h1, h2⟩ := position0_some hp
            rw [if_neg (position0_filter_ne_nil hp), ← h2, ← h1]

/-- C5 counterexample: with the codec still seeking the header and the first
buffered slice holding no NUL byte, decode returns an error with the state
and the buffer unchanged — it does not keep buffering until a NUL arrives in
a later read chunk (that would be the ok-none need-more-data result). -/
theorem c5_decode_counterexample :
    TestCodec.decode ⟨none⟩ (strBytes ("tree 42")) =
      (⟨none⟩, strBytes ("tree 42"),
        DecodeRes.err ("First file slice did not contain object header")) ∧
    (TestCodec.decode ⟨none⟩ (strBytes ("tree 42"))).2.2 ≠ DecodeRes.ok none := by
  constructor
  · decide
  · decide

/-- C10: read_header_from_file is not total: at EOF (empty remaining content)
the slice bound vec.len() - 1 underflows, a panic, instead of a None return;
on non-empty content with no NUL byte the final content byte is silently
dropped before parsing. -/
theorem c10_read_header_from_file_partial (content : Bytes) (hne : content ≠ [])
    (hnn : ∀ b ∈ content, b ≠ 0) :
    (read_header_from_file []).1 = PanicOr.panic ∧
    (read_header_from_file content).1 =
      PanicOr.ok (read_header_from_slice content.dropLast) := by
  constructor
  · rfl
  · unfold read_header_from_file
    rw [read_until_no_delim hnn]
    simp [hne]

/-- Witness for C10 at the content bytes of "blob 12" (no NUL, drops the 2). -/
theorem c10_read_header_from_file_partial_witness :
    (read_header_from_file []).1 = PanicOr.panic ∧
    (read_header_from_file (strBytes ("blob 12"))).1 =
      PanicOr.ok (read_header_from_slice (strBytes ("blob 12")).dropLast) :=
  c10_read_header_from_file_partial (strBytes ("blob 12")) (by decide) (by decide)

/-- C4: for an upload whose hash and headers parse and whose target file does
not already exist, when the stream ends without error the counted length is
checked first: a count different from the declared size deletes the file and
answers length-mismatch; otherwise a digest different from the path hash
deletes the file and answers hash-mismatch; otherwise the file stays and the
request is answered 201 Created. -/
theorem c4_put_object_validation_order (d : Bytes → Bytes) (state : Store)
    (object_id tv sv : Bytes) (chunks : List (Except String Bytes))
    (hash : Hash) (object_type : ObjectType) (object_size : Nat)
    (hh : Hash.from_string object_id = some hash)
    (hex : storeHasKey state hash.hash_string = false)
    (ht : ObjectType.from_str tv = some object_type)
    (hs : parseU64 sv = some object_size)
    (hstream : (streamChunks chunks).2.2 = none) :
    (object_size ≠ (streamChunks chunks).2.1 →
      put_object d state object_id (some tv) (some sv) chunks =
        (.error (400, ("Length provided does not match the body length")), state)) ∧
    (object_size = (streamChunks chunks).2.1 →
      hash.hash ≠ d (get_object_prefix_bytes object_type object_size ++ (streamChunks chunks).1) →
      put_object d state object_id (some tv) (some sv) chunks =
        (.error (400, ("Hash provided does not match the hash of the content")), state)) ∧
    (object_size = (streamChunks chunks).2.1 →
      hash.hash = d (get_object_prefix_bytes object_type object_size ++ (streamChunks chunks).1) →
      put_object d state object_id (some tv) (some sv) chunks =
        (.ok 201, (hash.hash_string,
          get_object_prefix_bytes object_type object_size ++ (streamChunks chunks).1) :: state)) := by
  refine ⟨?_, ?_, ?_⟩
  · intro hlen
    simp only [put_object, read_body_to_file, hh, hex, ht, hs, hstream,
      Bool.false_eq_true, if_false, if_pos hlen]
    try rfl
  · intro hlen hhash
    simp only [put_object, read_body_to_file, hh, hex, ht, hs, hstream,
      Bool.false_eq_true, if_false, if_neg (by omega : ¬ object_size ≠ (streamChunks chunks).2.1),
      if_pos hhash]
    try rfl
  · intro hlen hhash
    simp only [put_object, read_body_to_file, hh, hex, ht, hs, hstream,
      Bool.false_eq_true, if_false, if_neg (by omega : ¬ object_size ≠ (streamChunks chunks).2.1),
      if_neg (by simp [hhash] : ¬ hash.hash ≠ d (get_object_prefix_bytes object_type object_size ++ (streamChunks chunks).1))]
    try rfl

set_option maxRecDepth 8192 in
/-- Witness for C4 at a concrete request (the created branch): hash of the
path is the constant digest, one body chunk of one byte, size header 1. -/
theorem c4_put_object_validation_order_witness :
    put_object (fun _ => List.replicate 64 0) [] (List.replicate 128 48)
      (some (strBytes ("blob"))) (some [49]) [Except.ok [120]] =
      (.ok 201, [(List.replicate 128 48,
        get_object_prefix_bytes ObjectType.blob 1 ++ [120])]) := by
  have h := c4_put_object_validation_order (fun _ => List.replicate 64 0) []
    (List.replicate 128 48) (strBytes ("blob")) [49] [Except.ok [120]]
    ⟨List.replicate 64 0, List.replicate 128 48⟩ ObjectType.blob 1
    (by decide) (by decide) (by decide) (by decide) (by decide)
  exact h.2.2 (by decide) (by decide)

/-- C9: when the upload body stream fails mid-transfer (after the destination
file was created), the server answers with the internal-error outcome and the
partially written file is left in place, so a later upload of the same hash
is answered as an already-exists duplicate because of that partial file. -/
theorem c9_stream_error_leaves_file (d : Bytes → Bytes) (state : Store)
    (object_id tv sv : Bytes) (chunks : List (Except String Bytes))
    (hash : Hash) (object_type : ObjectType) (object_size : Nat) (msg : String)
    (hh : Hash.from_string object_id = some hash)
    (hex : storeHasKey state hash.hash_string = false)
    (ht : ObjectType.from_str tv = some object_type)
    (hs : parseU64 sv = some object_size)
    (hstream : (streamChunks chunks).2.2 = some msg) :
    put_object d state object_id (some tv) (some sv) chunks =
      (.error (500, msg),
        (hash.hash_string,
          get_object_prefix_bytes object_type object_size ++ (streamChunks chunks).1) :: state) ∧
    ∀ (tv2 sv2 : Option Bytes) (chunks2 : List (Except String Bytes)),
      (put_object d
        ((hash.hash_string,
          get_object_prefix_bytes object_type object_size ++ (streamChunks chunks).1) :: state)
        object_id tv2 sv2 chunks2).1 = .error (200, ("Object already exists")) := by
  constructor
  · simp only [put_object, read_body_to_file, hh, hex, ht, hs, hstream,
      Bool.false_eq_true, if_false]
    rfl
  · intro tv2 sv2 chunks2
    have hk : storeHasKey
        ((hash.hash_string,
          get_object_prefix_bytes object_type object_size ++ (streamChunks chunks).1) :: state)
        hash.hash_string = true := by
      unfold storeHasKey
      rw [storeLookup_cons, if_pos rfl]
      rfl
    simp only [put_object, hh, hk, if_true]

theorem fsEntryInduction {P : FsEntry → Prop}
    (hf : ∀ name content, P (.file name content))
    (hd : ∀ name entries, (∀ e ∈ entries, P e) → P (.dir name entries)) :
    ∀ e, P e := by
  have H : ∀ (n : Nat) (e : FsEntry), sizeOf e ≤ n → P e := by
    intro n
    induction n with
    | zero =>
        intro e he
        cases e <;> simp at he
    | succ n ih =>
        intro e he
        cases e with
        | file name content => exact hf name content
        | dir name entries =>
            refine hd name entries (fun x hx => ih x ?_)
            have h1 := List.sizeOf_lt_of_mem hx
            simp at he
            omega
  exact fun e => H (sizeOf e) e (Nat.le_refl _)

theorem treeObjectInduction {P : TreeObject → Prop}
    (hb : ∀ h b, P (.blobO h b))
    (ht : ∀ h m p contents, (∀ o ∈ contents, P o) → P (.treeO h m p contents)) :
    ∀ o, P o := by
  have H : ∀ (n : Nat) (o : TreeObject), sizeOf o ≤ n → P o := by
    intro n
    induction n with
    | zero =>
        intro o ho
        cases o <;> simp at ho
    | succ n ih =>
        intro o ho
        cases o with
        | blobO h b => exact hb h b
        | treeO h m p contents =>
            refine ht h m p contents (fun x hx => ih x ?_)
            have h1 := List.sizeOf_lt_of_mem hx
            simp at ho
            omega
  exact fun o => H (sizeOf o) o (Nat.le_refl _)

theorem commitList_eq_map (d : Bytes → Bytes) (es : List FsEntry) :
    commitList d es = es.map (commitEntry d) := by
  induction es with
  | nil => rfl
  | cons e rest ih => simp [commitList, ih]

theorem mem_nodesListOf {o : TreeObject} {l : List TreeObject} :
    o ∈ nodesListOf l ↔ ∃ x ∈ l, o ∈ nodesOf x := by
  induction l with
  | nil => simp [nodesListOf]
  | cons y rest ih =>
      simp [nodesListOf, ih]

/-- Every hash a commit pairs with a node is the digest of that node's own
object file (prefix then body). -/
theorem commit_hashOf (d : Bytes → Bytes) :
    ∀ e : FsEntry, ∀ o ∈ nodesOf (commitEntry d e),
      o.hashOf = Hash.fromBytes (d o.fileOf) := by
  refine fsEntryInduction ?_ ?_
  · intro name content o ho
    simp [commitEntry, nodesOf] at ho
    subst ho
    rfl
  · intro name entries ih o ho
    rw [show commitEntry d (.dir name entries) =
        TreeObject.ofTree
          (Tree.get_hash d ⟨Mode.tree, name, commitList d entries⟩)
          ⟨Mode.tree, name, commitList d entries⟩ from rfl] at ho
    simp only [TreeObject.ofTree, nodesOf, List.mem_cons] at ho
    rcases ho with rfl | ho
    · rfl
    · rw [commitList_eq_map] at ho
      rcases mem_nodesListOf.mp ho with ⟨x, hx, hox⟩
      rcases List.mem_map.mp hx with ⟨e, he, rfl⟩
      exact ih e he o hox

theorem objFilesList_append (l1 l2 : List TreeObject) :
    objFilesList (l1 ++ l2) = objFilesList l1 ++ objFilesList l2 := by
  induction l1 with
  | nil => simp [objFilesList]
  | cons o rest ih => simp [objFilesList, ih]

/-- The writes of write_tree_to_folder are exactly one write per node, in
depth-first order, each at the node's hash string with the node's file. -/
theorem objFiles_eq_nodes :
    ∀ o : TreeObject,
      objFiles o = (nodesOf o).map (fun n => (n.hashOf.hash_string, n.fileOf)) := by
  refine treeObjectInduction ?_ ?_
  · intro h b
    rfl
  · intro h m p contents ih
    have hlist : objFilesList contents =
        (nodesListOf contents).map (fun n => (n.hashOf.hash_string, n.fileOf)) := by
      clear h
      induction contents with
      | nil => rfl
      | cons o rest ihl =>
          simp only [objFilesList, nodesListOf, List.map_append]
          rw [ih o (List.mem_cons_self _ _),
            ihl (fun x hx => ih x (List.mem_cons_of_mem _ hx))]
    simp [objFiles, nodesOf, hlist, TreeObject.hashOf, TreeObject.fileOf]

theorem storeLookup_writeAll (files : List (Bytes × Bytes)) :
    ∀ (s : Store) (q : Bytes),
      storeLookup (writeAll s files) q =
        match storeLookup s q with
        | some c => some c
        | none => lookupAssoc files q := by
  induction files with
  | nil =>
      intro s q
      simp [writeAll, lookupAssoc]
      cases storeLookup s q <;> rfl
  | cons f rest ih =>
      intro s q
      have hstep : writeAll s (f :: rest) = writeAll (writeIfNotExists s f.1 f.2) rest := rfl
      rw [hstep, ih]
      rw [storeLookup_writeIfNotExists]
      by_cases hq : q = f.1
      · cases hs : storeLookup s q with
        | some c0 =>
            have hhk : storeHasKey s f.1 = true := by
              unfold storeHasKey
              rw [← hq, hs]
              rfl
            rw [if_neg (fun hc => by rw [hhk] at hc; exact hc.2 rfl)]
        | none =>
            have hhk : storeHasKey s f.1 = false := by
              unfold storeHasKey
              rw [← hq, hs]
              rfl
            rw [if_pos ⟨hq, by rw [hhk]; simp⟩]
            cases f with
            | mk k c => simp [lookupAssoc, hq]
      · rw [if_neg (fun hc => hq hc.1)]
        cases hs : storeLookup s q with
        | some c0 => rfl
        | none =>
            cases f with
            | mk k c =>
                simp only [lookupAssoc]
                rw [if_neg (by simpa using hq)]

theorem lookupAssoc_of_mem {files : List (Bytes × Bytes)} {k c : Bytes}
    (hm : (k, c) ∈ files) (hcons : filesConsistent files) :
    lookupAssoc files k = some c := by
  induction files with
  | nil => simp at hm
  | cons f rest ih =>
      cases f with
      | mk k0 c0 =>
          unfold lookupAssoc
          by_cases hk : k = k0
          · subst hk
            have h2 : c0 = c :=
              hcons (k, c0) (List.mem_cons_self _ _) (k, c) hm rfl
            simp [h2]
          · rw [if_neg hk]
            rcases List.mem_cons.mp hm with heq | hm2
            · exact absurd (congrArg Prod.fst heq) hk
            · exact ih hm2 (fun p hp q hq => hcons p (List.mem_cons_of_mem _ hp)
                q (List.mem_cons_of_mem _ hq))


theorem storeHasKey_writeIfNotExists_self (s : Store) (k c : Bytes) :
    storeHasKey (writeIfNotExists s k c) k = true := by
  unfold storeHasKey
  rw [storeLookup_writeIfNotExists]
  by_cases hk : storeHasKey s k
  · rw [if_neg (by intro hc; exact hc.2 hk)]
    unfold storeHasKey at hk
    cases hs : storeLookup s k with
    | none => rw [hs] at hk; simp at hk
    | some c0 => rfl
  · rw [if_pos ⟨rfl, hk⟩]
    rfl

theorem storeHasKey_writeAll_mono {s : Store} {q : Bytes}
    (files : List (Bytes × Bytes)) (h : storeHasKey s q = true) :
    storeHasKey (writeAll s files) q = true := by
  induction files generalizing s with
  | nil => exact h
  | cons f rest ih => exact ih (storeHasKey_mono h)

theorem storeHasKey_writeAll_of_mem {files : List (Bytes × Bytes)} {k c : Bytes}
    (hm : (k, c) ∈ files) : ∀ s, storeHasKey (writeAll s files) k = true := by
  induction files with
  | nil => simp at hm
  | cons f rest ih =>
      intro s
      rcases List.mem_cons.mp hm with rfl | hm2
      · exact storeHasKey_writeAll_mono rest (storeHasKey_writeIfNotExists_self s k c)
      · exact ih hm2 _

theorem writeAll_of_all_present {files : List (Bytes × Bytes)} :
    ∀ {s : Store}, (∀ p ∈ files, storeHasKey s p.1 = true) → writeAll s files = s := by
  induction files with
  | nil => intro s _; rfl
  | cons f rest ih =>
      intro s hall
      have hf : storeHasKey s f.1 = true := hall f (List.mem_cons_self _ _)
      have hstep : writeAll s (f :: rest) = writeAll (writeIfNotExists s f.1 f.2) rest := rfl
      rw [hstep]
      unfold writeIfNotExists
      rw [if_pos hf]
      exact ih (fun p hp => hall p (List.mem_cons_of_mem _ hp))

theorem writeAll_twice (s : Store) (files : List (Bytes × Bytes)) :
    writeAll (writeAll s files) files = writeAll s files :=
  writeAll_of_all_present (fun p hp => by
    cases p with
    | mk k c => exact storeHasKey_writeAll_of_mem hp s)

set_option maxRecDepth 8192 in
/-- Witness for C9: a one-byte chunk followed by a stream error. -/
theorem c9_stream_error_leaves_file_witness :
    put_object (fun _ => List.replicate 64 0) [] (List.replicate 128 48)
      (some (strBytes ("blob"))) (some [50]) [Except.ok [120], Except.error ("boom")] =
      (.error (500, ("boom")),
        [(List.replicate 128 48, get_object_prefix_bytes ObjectType.blob 2 ++ [120])]) ∧
    (put_object (fun _ => List.replicate 64 0)
      [(List.replicate 128 48, get_object_prefix_bytes ObjectType.blob 2 ++ [120])]
      (List.replicate 128 48) (some (strBytes ("blob"))) (some [50])
      [Except.ok [120], Except.error ("boom")]).1 = .error (200, ("Object already exists")) := by
  have h := c9_stream_error_leaves_file (fun _ => List.replicate 64 0) []
    (List.replicate 128 48) (strBytes ("blob")) [50]
    [Except.ok [120], Except.error ("boom")]
    ⟨List.replicate 64 0, List.replicate 128 48⟩ ObjectType.blob 2 ("boom")
    (by decide) (by decide) (by decide) (by decide) (by decide)
  exact ⟨h.1, h.2 (some (strBytes ("blob"))) (some [50])
    [Except.ok [120], Except.error ("boom")]⟩

theorem to_str_no_space (t : ObjectType) : ∀ b ∈ t.to_str, b ≠ 32 := by
  cases t <;> decide

theorem from_str_to_str (t : ObjectType) : ObjectType.from_str t.to_str = some t := by
  cases t <;> decide

theorem get_object_prefix_bytes_dropLast (t : ObjectType) (n : Nat) :
    (get_object_prefix_bytes t n).dropLast = t.to_str ++ [32] ++ decToBytes n := by
  unfold get_object_prefix_bytes
  rw [List.dropLast_concat]

theorem read_header_from_slice_prefix (t : ObjectType) (n : Nat) (hn : n < 2 ^ 64) :
    read_header_from_slice (t.to_str ++ [32] ++ decToBytes n) = some (t, n) := by
  unfold read_header_from_slice
  have hassoc : t.to_str ++ [32] ++ decToBytes n = t.to_str ++ 32 :: decToBytes n := by
    simp
  rw [hassoc, splitOnce_split (to_str_no_space t)]
  simp [from_str_to_str, parseU64_decToBytes hn]

/-- C2: for every object of every kind the content hash is the digest of the
canonical prefix (kind keyword, space, decimal length, NUL) followed by the
body, and the length declared in the prefix — as the header parser reads it
back — is exactly the byte length of the body: the source file content for a
blob built by Blob::from_path, Tree::get_body for a tree, Index::get_body for
an index. -/
theorem c2_hash_is_digest_of_prefix_and_body (d : Bytes → Bytes)
    (name content : Bytes) (t : Tree) (i : Index)
    (hc : content.length < 2 ^ 64)
    (htl : t.get_body.length < 2 ^ 64)
    (hil : i.get_body.length < 2 ^ 64) :
    (Blob.get_hash d (Blob.from_path name content) =
        Hash.fromBytes (d (get_object_prefix_bytes .blob content.length ++ content)) ∧
      read_header_from_slice (get_object_prefix_bytes .blob content.length).dropLast =
        some (.blob, content.length)) ∧
    (Tree.get_hash d t =
        Hash.fromBytes (d (get_object_prefix_bytes .tree t.get_body.length ++ t.get_body)) ∧
      read_header_from_slice (get_object_prefix_bytes .tree t.get_body.length).dropLast =
        some (.tree, t.get_body.length)) ∧
    (Index.get_hash d i =
        Hash.fromBytes (d (get_object_prefix_bytes .index i.get_body.length ++ i.get_body)) ∧
      read_header_from_slice (get_object_prefix_bytes .index i.get_body.length).dropLast =
        some (.index, i.get_body.length)) := by
  refine ⟨⟨rfl, ?_⟩, ⟨rfl, ?_⟩, ⟨rfl, ?_⟩⟩
  · rw [get_object_prefix_bytes_dropLast]
    exact read_header_from_slice_prefix _ _ hc
  · rw [get_object_prefix_bytes_dropLast]
    exact read_header_from_slice_prefix _ _ htl
  · rw [get_object_prefix_bytes_dropLast]
    exact read_header_from_slice_prefix _ _ hil

set_option maxRecDepth 8192 in
/-- Witness for C2 at a two-byte blob, an empty tree, and a small index. -/
theorem c2_hash_is_digest_of_prefix_and_body_witness :
    (Blob.get_hash toyDigest (Blob.from_path [97] [104, 105]) =
        Hash.fromBytes (toyDigest
          (get_object_prefix_bytes .blob ([104, 105] : Bytes).length ++ [104, 105])) ∧
      read_header_from_slice
          (get_object_prefix_bytes .blob ([104, 105] : Bytes).length).dropLast =
        some (.blob, ([104, 105] : Bytes).length)) ∧
    (Tree.get_hash toyDigest ⟨Mode.tree, [], []⟩ =
        Hash.fromBytes (toyDigest
          (get_object_prefix_bytes .tree (Tree.get_body ⟨Mode.tree, [], []⟩).length ++
            Tree.get_body ⟨Mode.tree, [], []⟩)) ∧
      read_header_from_slice
          (get_object_prefix_bytes .tree (Tree.get_body ⟨Mode.tree, [], []⟩).length).dropLast =
        some (.tree, (Tree.get_body ⟨Mode.tree, [], []⟩).length)) ∧
    (Index.get_hash toyDigest
          ⟨[84], ⟨⟨Mode.tree, [], []⟩, Hash.fromBytes (List.replicate 64 0)⟩⟩ =
        Hash.fromBytes (toyDigest
          (get_object_prefix_bytes .index
              (Index.get_body
                ⟨[84], ⟨⟨Mode.tree, [], []⟩, Hash.fromBytes (List.replicate 64 0)⟩⟩).length ++
            Index.get_body
              ⟨[84], ⟨⟨Mode.tree, [], []⟩, Hash.fromBytes (List.replicate 64 0)⟩⟩)) ∧
      read_header_from_slice
          (get_object_prefix_bytes .index
            (Index.get_body
              ⟨[84], ⟨⟨Mode.tree, [], []⟩, Hash.fromBytes (List.replicate 64 0)⟩⟩).length).dropLast =
        some (.index,
          (Index.get_body
            ⟨[84], ⟨⟨Mode.tree, [], []⟩, Hash.fromBytes (List.replicate 64 0)⟩⟩).length)) :=
  c2_hash_is_digest_of_prefix_and_body toyDigest [97] [104, 105]
    ⟨Mode.tree, [], []⟩
    ⟨[84], ⟨⟨Mode.tree, [], []⟩, Hash.fromBytes (List.replicate 64 0)⟩⟩
    (by decide) (by decide) (by decide)

/-- C3 (amended): committing the same directory twice with the same run
timestamp yields the same printed Index hash and the second commit writes
zero new files: the cache is returned unchanged.  (The code puts
Utc::now() into the hashed index body, so across two real runs the Index
hash differs — see the counterexample.) -/
theorem c3_commit_idempotent_same_timestamp (d : Bytes → Bytes) (now : Bytes)
    (cache : Store) (name : Bytes) (entries : List FsEntry) :
    commit_directory d now (commit_directory d now cache name entries).2 name entries =
      commit_directory d now cache name entries := by
  simp only [commit_directory, write_index_to_folder]
  rw [writeAll_twice]

set_option maxRecDepth 8192 in
/-- C3 counterexample: the same (empty) directory committed at timestamps A
and B gives different Index hashes, and the second commit grows the cache by
the new index file, contradicting idempotence across two real runs. -/
theorem c3_commit_timestamp_counterexample :
    (commit_directory toyDigest [65] [] [114] []).1 ≠
      (commit_directory toyDigest [66] [] [114] []).1 ∧
    (commit_directory toyDigest [66]
        (commit_directory toyDigest [65] [] [114] []).2 [114] []).2 ≠
      (commit_directory toyDigest [65] [] [114] []).2 := by
  exact ⟨by decide, by decide⟩

/-- C6 (amended): a hash string that is not 128 characters, or contains a
byte that is not a hex digit, is rejected by Hash::from_string, so the server
answers both upload and download with the 400 invalid-hash outcome and an
unchanged store; the client entry points (restore index argument, cat hash
argument) go through From&lt;&str&gt;, whose assert!/unwrap panics — the process
aborts (modeled by none) instead of reporting InvalidHash. -/
theorem c6_invalid_hash_every_entry_point (v : Bytes)
    (hbad : v.length ≠ 128 ∨ ∃ c ∈ v, hexVal c = none) :
    Hash.from_string v = none ∧
    Hash.from_str v = none ∧
    (∀ d state hdrT hdrS chunks,
      put_object d state v hdrT hdrS chunks =
        (.error (400, ("Invalid Sha512 hash")), state)) ∧
    (∀ state, get_object state v = .error (400, ("Invalid Sha512 hash"))) ∧
    (∀ cache, cat_object cache v = none) ∧
    (∀ cache fuel, restore_directory cache v fuel = none) := by
  have hfs : Hash.from_string v = none := by
    unfold Hash.from_string
    rcases hbad with hl | ⟨c, hc, hcv⟩
    · rw [if_pos hl]
    · by_cases hl : v.length ≠ 128
      · rw [if_pos hl]
      · rw [if_neg hl, hexDecode_none_of_bad hc hcv]
  have hfstr : Hash.from_str v = none := by
    unfold Hash.from_str
    rcases hbad with hl | ⟨c, hc, hcv⟩
    · rw [if_neg hl]
    · by_cases hl : v.length = 128
      · rw [if_pos hl, hexDecode_none_of_bad hc hcv]
      · rw [if_neg hl]
  refine ⟨hfs, hfstr, ?_, ?_, ?_, ?_⟩
  · intro d state hdrT hdrS chunks
    simp [put_object, hfs]
  · intro state
    simp [get_object, hfs]
  · intro cache
    simp [cat_object, hfstr]
  · intro cache fuel
    simp [restore_directory, hfstr]

set_option maxRecDepth 8192 in
/-- Witness for C6 at a 127-character hex string. -/
theorem c6_invalid_hash_every_entry_point_witness :
    Hash.from_string (List.replicate 127 97) = none ∧
    Hash.from_str (List.replicate 127 97) = none ∧
    put_object toyDigest [] (List.replicate 127 97) none none [] =
      (.error (400, ("Invalid Sha512 hash")), []) ∧
    get_object [] (List.replicate 127 97) = .error (400, ("Invalid Sha512 hash")) ∧
    cat_object [] (List.replicate 127 97) = none ∧
    restore_directory [] (List.replicate 127 97) 9 = none := by
  have h := c6_invalid_hash_every_entry_point (List.replicate 127 97)
    (Or.inl (by decide))
  exact ⟨h.1, h.2.1, h.2.2.1 toyDigest [] none none [], h.2.2.2.1 [],
    h.2.2.2.2.1 [], h.2.2.2.2.2 [] 9⟩

set_option maxRecDepth 8192 in
/-- C6 counterexample: the client entry points do not reject an invalid hash
with an InvalidHash outcome — Hash::from aborts the process on a
127-character argument (the abort is the `none` of From&lt;&str&gt;), for cat and
for restore alike. -/
theorem c6_client_abort_counterexample :
    Hash.from_str (List.replicate 127 97) = none ∧
    cat_object [] (List.replicate 127 97) = none ∧
    restore_directory [] (List.replicate 127 97) 9 = none := by
  refine ⟨by decide, by decide, ?_⟩
  have hfs : Hash.from_str (List.replicate 127 97) = none := by decide
  simp only [restore_directory, hfs]
  rfl

/-- C7 (amended): every Hashed built during commit pairs the value with the
digest of its canonical encoding — Hashed::from_object recomputes the hash
from the value for each kind, so every node of a committed graph carries the
digest of its own object file.  During rehydration the hash is instead taken
from the storage file path without recomputation (see the counterexample),
so there the pairing holds only for authentic store content. -/
theorem c7_commit_hashes_recomputed (d : Bytes → Bytes) (b : Blob) (t : Tree)
    (i : Index) (e : FsEntry) :
    (Hashed.from_object (Blob.get_hash d) b).hash =
      Hash.fromBytes (d (b.get_prefix_bytes ++ b.fileBytes)) ∧
    (Hashed.from_object (Tree.get_hash d) t).hash =
      Hash.fromBytes (d (t.get_prefix_bytes ++ t.get_body)) ∧
    (Hashed.from_object (Index.get_hash d) i).hash =
      Hash.fromBytes (d (i.get_prefix_bytes ++ i.get_body)) ∧
    ∀ o ∈ nodesOf (commitEntry d e), o.hashOf = Hash.fromBytes (d o.fileOf) :=
  ⟨rfl, rfl, rfl, commit_hashOf d e⟩

set_option maxRecDepth 8192 in
/-- C7 counterexample: rehydration assigns the hash from the storage path
without recomputing it from the value.  On a store whose file at the
all-zeros name holds "blob 1\0X", to_blob yields a Hashed pairing the
all-zeros hash with the blob, yet the digest (here toyDigest) of the blob's
canonical encoding is not that hash. -/
theorem c7_rehydrated_hash_counterexample :
    Option.map (fun hb => (hb.hash, hb.inner.fileBytes, hb.inner.size))
      ((CacheObject.from_file [(List.replicate 128 48, strBytes ("blob 1") ++ [0, 88])]
          (List.replicate 128 48)).bind
        (fun co => CacheObject.to_blob co Mode.normal [97])) =
      some (⟨List.replicate 64 0, List.replicate 128 48⟩,
        strBytes ("blob 1") ++ [0, 88], 1) ∧
    ¬ (⟨List.replicate 64 0, List.replicate 128 48⟩ : Hash).hash =
        toyDigest (get_object_prefix_bytes ObjectType.blob 1 ++ [88]) := by
  refine ⟨by decide, by decide⟩

/-- C8 (amended): the on-disk location is a function of the hash's textual
form; for hashes in the canonical lowercase form — every hash the program
builds from raw bytes goes through hex::encode — equal raw bytes give the
same shard directory, file name, and path.  Hash parsing, however, also
accepts uppercase text, which sends the same raw bytes to a different
location (see the counterexample). -/
theorem c8_location_determined_by_bytes_when_canonical (a b : Hash)
    (ha : a.hash_string = hexEncode a.hash)
    (hb : b.hash_string = hexEncode b.hash)
    (heq : a.hash = b.hash) :
    a.get_parts = b.get_parts ∧
    ∀ cache_dir, a.get_path cache_dir = b.get_path cache_dir := by
  have hs : a.hash_string = b.hash_string := by rw [ha, hb, heq]
  constructor
  · simp [Hash.get_parts, hs]
  · intro cache_dir
    simp [Hash.get_path, Hash.get_parts, hs]

set_option maxRecDepth 8192 in
/-- Witness for C8 at the bytes 0xaa…aa in raw and lowercase-parsed form. -/
theorem c8_location_determined_by_bytes_when_canonical_witness :
    (Hash.fromBytes (List.replicate 64 170)).get_parts =
      (⟨List.replicate 64 170, List.replicate 128 97⟩ : Hash).get_parts ∧
    ∀ cache_dir, (Hash.fromBytes (List.replicate 64 170)).get_path cache_dir =
      (⟨List.replicate 64 170, List.replicate 128 97⟩ : Hash).get_path cache_dir :=
  c8_location_determined_by_bytes_when_canonical
    (Hash.fromBytes (List.replicate 64 170))
    ⟨List.replicate 64 170, List.replicate 128 97⟩
    (by rfl) (by decide) (by rfl)

theorem Mode.from_str_code (m : Mode) : Mode.from_str m.code = some m := by
  cases m <;> decide

theorem Mode.code_props (m : Mode) : ∀ b ∈ m.code, b ≠ 0 ∧ b ≠ 32 := by
  cases m <;> decide

theorem to_str_no_nul (t : ObjectType) : ∀ b ∈ t.to_str, b ≠ 0 := by
  cases t <;> decide

theorem prefix_mid_no_nul (t : ObjectType) (n : Nat) :
    ∀ b ∈ t.to_str ++ [32] ++ decToBytes n, b ≠ 0 := by
  intro b hb
  rcases List.mem_append.mp hb with hb1 | hb2
  · rcases List.mem_append.mp hb1 with hb3 | hb4
    · exact to_str_no_nul t b hb3
    · simp at hb4
      omega
  · have := decToBytes_digits hb2
    omega

theorem getLast?_mid_concat (l1 l2 : Bytes) (b a : Nat) :
    (l1 ++ b :: (l2 ++ [a])).getLast? = some a := by
  rw [show l1 ++ b :: (l2 ++ [a]) = (l1 ++ b :: l2) ++ [a] by simp]
  exact List.getLast?_concat _

theorem dropLast_mid_concat (l1 l2 : Bytes) (b a : Nat) :
    (l1 ++ b :: (l2 ++ [a])).dropLast = l1 ++ b :: l2 := by
  rw [show l1 ++ b :: (l2 ++ [a]) = (l1 ++ b :: l2) ++ [a] by simp]
  exact List.dropLast_concat

theorem getLast?_cons_concat (b a : Nat) (l : Bytes) :
    (b :: (l ++ [a])).getLast? = some a := by
  rw [show b :: (l ++ [a]) = (b :: l) ++ [a] by simp]
  exact List.getLast?_concat _

theorem dropLast_cons_concat (b a : Nat) (l : Bytes) :
    (b :: (l ++ [a])).dropLast = b :: l := by
  rw [show b :: (l ++ [a]) = (b :: l) ++ [a] by simp]
  exact List.dropLast_concat

theorem read_until_prefix_body (t : ObjectType) (n : Nat) (body : Bytes) :
    read_until 0 (get_object_prefix_bytes t n ++ body) =
      (t.to_str ++ [32] ++ decToBytes n ++ [0], body) := by
  have h1 : get_object_prefix_bytes t n ++ body =
      (t.to_str ++ [32] ++ decToBytes n) ++ 0 :: body := by
    simp [get_object_prefix_bytes]
  rw [h1, read_until_split (prefix_mid_no_nul t n)]

theorem read_header_from_slice_prefixR (t : ObjectType) (n : Nat) (hn : n < 2 ^ 64) :
    read_header_from_slice (t.to_str ++ 32 :: decToBytes n) = some (t, n) := by
  have h : t.to_str ++ 32 :: decToBytes n = t.to_str ++ [32] ++ decToBytes n := by simp
  rw [h]
  exact read_header_from_slice_prefix t n hn

theorem read_header_prefix_body (t : ObjectType) (n : Nat) (body : Bytes)
    (hn : n < 2 ^ 64) :
    read_header_from_file (get_object_prefix_bytes t n ++ body) =
      (PanicOr.ok (some (t, n)), body) := by
  unfold read_header_from_file
  rw [read_until_prefix_body]
  simp only []
  rw [if_neg (by simp)]
  simp [getLast?_mid_concat, dropLast_mid_concat, getLast?_cons_concat,
    dropLast_cons_concat, List.dropLast_concat,
    read_header_from_slice_prefixR t n hn]

theorem hexEncode_inj {a b : Bytes} (ha : ∀ x ∈ a, x < 256)
    (hb : ∀ x ∈ b, x < 256) (h : hexEncode a = hexEncode b) : a = b := by
  have h1 := hexDecode_hexEncode ha
  have h2 := hexDecode_hexEncode hb
  rw [h] at h1
  rw [h1] at h2
  injection h2

theorem from_str_hexEncode {hb : Bytes} (h : GoodOut hb) :
    Hash.from_str (hexEncode hb) = some ⟨hb, hexEncode hb⟩ := by
  unfold Hash.from_str
  rw [if_pos (by rw [hexEncode_length, h.1])]
  rw [hexDecode_hexEncode h.2]
  simp [h.1]

theorem from_file_spec {cache : Store} {kind : ObjectType} {bodyLen : Nat}
    {body hb : Bytes}
    (hlk : storeLookup cache (hexEncode hb) =
      some (get_object_prefix_bytes kind bodyLen ++ body))
    (hgood : GoodOut hb)
    (hlen : bodyLen < 2 ^ 64) :
    CacheObject.from_file cache (hexEncode hb) =
      some ⟨kind, ⟨hb, hexEncode hb⟩, bodyLen,
        get_object_prefix_bytes kind bodyLen ++ body⟩ := by
  have hkey : (hexEncode hb).length = 128 := by rw [hexEncode_length, hgood.1]
  have hsplit : splitOnce 32 (kind.to_str ++ [32] ++ decToBytes bodyLen) =
      some (kind.to_str, decToBytes bodyLen) := by
    have hassoc : kind.to_str ++ [32] ++ decToBytes bodyLen =
        kind.to_str ++ 32 :: decToBytes bodyLen := by simp
    rw [hassoc]
    exact splitOnce_split (to_str_no_space kind)
  have hpath : Hash.from_path ((hexEncode hb).take 2) ((hexEncode hb).drop 2) =
      some ⟨hb, hexEncode hb⟩ := by
    unfold Hash.from_path
    rw [if_pos (by
      constructor
      · rw [List.length_take, hkey]
        omega
      · rw [List.length_drop, hkey])]
    rw [List.take_append_drop]
    exact from_str_hexEncode hgood
  have hsplit2 : splitOnce 32 (kind.to_str ++ 32 :: decToBytes bodyLen) =
      some (kind.to_str, decToBytes bodyLen) := splitOnce_split (to_str_no_space kind)
  unfold CacheObject.from_file
  simp [hlk, read_until_prefix_body, getLast?_mid_concat, dropLast_mid_concat,
    getLast?_cons_concat, dropLast_cons_concat,
    hsplit2, from_str_to_str, parseU64_decToBytes hlen, hpath]

theorem to_blob_spec (h : Hash) (mode : Mode) (path : Bytes) (size : Nat)
    (content : Bytes) (hlen : size < 2 ^ 64) :
    CacheObject.to_blob
        ⟨.blob, h, size, get_object_prefix_bytes .blob size ++ content⟩ mode path =
      some ⟨⟨mode, path, get_object_prefix_bytes .blob size ++ content, size⟩, h⟩ := by
  unfold CacheObject.to_blob
  rw [if_pos rfl]
  simp only [read_header_prefix_body .blob size content hlen]

theorem writeTreeItem_blob (h : Hash) (mode : Mode) (path : Bytes) (size : Nat)
    (content : Bytes) :
    writeTreeItem (.blobO h ⟨mode, path,
        get_object_prefix_bytes .blob size ++ content, size⟩) =
      some (.file path content) := by
  unfold writeTreeItem
  rw [if_neg (by simp [get_object_prefix_bytes]), read_until_prefix_body]

theorem depthF_le_of_mem {e : FsEntry} {es : List FsEntry} (h : e ∈ es) :
    depthF e ≤ depthListF es := by
  induction es with
  | nil => simp at h
  | cons x rest ih =>
      unfold depthListF
      rcases List.mem_cons.mp h with rfl | h2
      · exact Nat.le_max_left _ _
      · exact Nat.le_trans (ih h2) (Nat.le_max_right _ _)

theorem nodesOf_self (o : TreeObject) : o ∈ nodesOf o := by
  cases o <;> simp [nodesOf]

theorem commitEntry_file (d : Bytes → Bytes) (name content : Bytes) :
    commitEntry d (.file name content) =
      .blobO (Blob.get_hash d (Blob.from_path name content))
        (Blob.from_path name content) := rfl

theorem commitEntry_dir (d : Bytes → Bytes) (name : Bytes) (entries : List FsEntry) :
    commitEntry d (.dir name entries) =
      .treeO (Tree.get_hash d ⟨Mode.tree, name, commitList d entries⟩)
        Mode.tree name (commitList d entries) := rfl

theorem nodes_child_sub {d : Bytes → Bytes} {name : Bytes} {es : List FsEntry}
    {e2 : FsEntry} (h2 : e2 ∈ es) :
    ∀ n ∈ nodesOf (commitEntry d e2), n ∈ nodesOf (commitEntry d (.dir name es)) := by
  intro n hn
  rw [commitEntry_dir]
  show n ∈ nodesOf (.treeO _ _ _ _)
  unfold nodesOf
  refine List.mem_cons_of_mem _ ?_
  refine mem_nodesListOf.mpr ⟨commitEntry d e2, ?_, hn⟩
  rw [commitList_eq_map]
  exact List.mem_map_of_mem _ h2

theorem to_tree_bytes_eq (o : TreeObject) :
    o.to_tree_bytes = o.modeOf.code ++ [32] ++ o.pathOf ++ [0] ++ o.hashOf.hash := by
  cases o <;> rfl

theorem pathOf_commitEntry (d : Bytes → Bytes) (e : FsEntry) :
    e.withName ((commitEntry d e).pathOf) = e := by
  cases e <;> rfl

theorem isLowerHex_not_ws {c : Nat} (h : isLowerHex c) : isWS c = false := by
  unfold isLowerHex at h
  unfold isWS
  simp at h ⊢
  omega

theorem dropWhile_ws_of_head {hs : Bytes} (h : ∀ c ∈ hs, isLowerHex c) :
    List.dropWhile isWS hs = hs := by
  cases hs with
  | nil => rfl
  | cons a rest =>
      rw [List.dropWhile_cons]
      simp [isLowerHex_not_ws (h a (List.mem_cons_self _ _))]

theorem trimBytes_space_hex {hs : Bytes} (h : ∀ c ∈ hs, isLowerHex c) :
    trimBytes (32 :: hs) = hs := by
  unfold trimBytes
  have h1 : List.dropWhile isWS (32 :: hs) = hs := by
    rw [List.dropWhile_cons]
    simp only [show isWS 32 = true from rfl, if_true]
    exact dropWhile_ws_of_head h
  rw [h1]
  have h2 : List.dropWhile isWS hs.reverse = hs.reverse := by
    refine dropWhile_ws_of_head ?_
    intro c hc
    exact h c (by simpa using hc)
  rw [h2, List.reverse_reverse]

theorem isLowerHex_ge {c : Nat} (h : isLowerHex c) : 48 ≤ c := by
  unfold isLowerHex at h
  simp at h
  omega

theorem dropWhile_ws_of_no_ws {ts : Bytes} (h : ∀ c ∈ ts, isWS c = false) :
    List.dropWhile isWS ts = ts := by
  cases ts with
  | nil => rfl
  | cons a rest =>
      rw [List.dropWhile_cons]
      simp [h a (List.mem_cons_self _ _)]

theorem trimBytes_space_no_ws {ts : Bytes} (h : ∀ c ∈ ts, isWS c = false) :
    trimBytes (32 :: ts) = ts := by
  unfold trimBytes
  have h1 : List.dropWhile isWS (32 :: ts) = ts := by
    rw [List.dropWhile_cons]
    simp only [show isWS 32 = true from rfl, if_true]
    exact dropWhile_ws_of_no_ws h
  rw [h1]
  have h2 : List.dropWhile isWS ts.reverse = ts.reverse :=
    dropWhile_ws_of_no_ws (fun c hc => h c (by simpa using hc))
  rw [h2, List.reverse_reverse]

/-- CacheObject::to_index on a committed index file with a clean timestamp
and a lowercase-hex tree line: the header is stripped, the two key: value
lines parse into the metadata map, and what remains is the tree hash parse,
lookup and rehydration chain. -/
theorem to_index_spec (cache : Store) (fuel : Nat) (ihash : Hash) (n : Nat)
    (ts hx : Bytes) (hts : ∀ c ∈ ts, isWS c = false ∧ c ≠ 0 ∧ c ≠ 10)
    (hhx : ∀ c ∈ hx, isLowerHex c) :
    CacheObject.to_index cache fuel
      ⟨ObjectType.index, ihash, n, get_object_prefix_bytes ObjectType.index n ++
        ((strBytes ("timestamp: ") ++ ts) ++ 10 :: (strBytes ("tree: ") ++ hx))⟩ =
      (do
        let tree_hash ← Hash.from_str hx
        let tree_object ← CacheObject.from_file cache tree_hash.hash_string
        if tree_object.object_type = ObjectType.tree then do
          let ht ← CacheObject.to_tree cache fuel tree_object Mode.tree []
          pure ⟨⟨ts, ht⟩, ihash⟩
        else none) := by
  have h10a : ∀ b ∈ strBytes ("timestamp: ") ++ ts, b ≠ 10 := by
    intro b hb
    rcases List.mem_append.mp hb with h | h
    · have hlit : ∀ b ∈ strBytes ("timestamp: "), b ≠ 10 := by decide
      exact hlit b h
    · exact (hts b h).2.2
  have h10b : ∀ b ∈ strBytes ("tree: ") ++ hx, b ≠ 10 := by
    intro b hb
    rcases List.mem_append.mp hb with h | h
    · have hlit : ∀ b ∈ strBytes ("tree: "), b ≠ 10 := by decide
      exact hlit b h
    · have := isLowerHex_ge (hhx b h)
      omega
  have hl1 : strBytes ("timestamp: ") ++ ts =
      strBytes ("timestamp") ++ 58 :: (32 :: ts) := by
    rw [show strBytes ("timestamp: ") = strBytes ("timestamp") ++ [58, 32] from by decide]
    simp
  have hl2 : strBytes ("tree: ") ++ hx = strBytes ("tree") ++ 58 :: (32 :: hx) := by
    rw [show strBytes ("tree: ") = strBytes ("tree") ++ [58, 32] from by decide]
    simp
  unfold CacheObject.to_index
  rw [if_pos rfl]
  simp only []
  rw [read_until_prefix_body]
  simp only []
  rw [splitOn_single h10a h10b]
  rw [List.mapM_cons, List.mapM_cons, List.mapM_nil]
  rw [hl1, hl2]
  rw [splitOnce_split (show ∀ b ∈ strBytes ("timestamp"), b ≠ 58 from by decide)]
  rw [splitOnce_split (show ∀ b ∈ strBytes ("tree"), b ≠ 58 from by decide)]
  simp only [Option.map_some']
  simp only [Option.bind_eq_bind, Option.some_bind, Option.pure_def]
  rw [trimBytes_space_no_ws (fun c hc => (hts c hc).1)]
  rw [trimBytes_space_hex hhx]
  rw [show List.reverse [(strBytes ("timestamp"), ts), (strBytes ("tree"), hx)] =
    [(strBytes ("tree"), hx), (strBytes ("timestamp"), ts)] from by simp]
  rw [show lookupAssoc [(strBytes ("tree"), hx), (strBytes ("timestamp"), ts)]
      (strBytes ("timestamp")) = some ts from by
    simp [lookupAssoc]
    intro h
    exact absurd h (by decide)]
  rw [show lookupAssoc [(strBytes ("tree"), hx), (strBytes ("timestamp"), ts)]
      (strBytes ("tree")) = some hx from by
    simp [lookupAssoc]]
  simp only [Option.bind_eq_bind, Option.some_bind]

theorem commit_directory_eq (d : Bytes → Bytes) (now rootName : Bytes)
    (entries : List FsEntry) :
    commit_directory d now [] rootName entries =
      (Index.get_hash d (Index.from_path d now rootName entries),
        writeAll [] (commitFiles d now rootName entries)) := rfl

theorem fromBytes_hash (b : Bytes) : (Hash.fromBytes b).hash = b := rfl

theorem fromBytes_hash_string (b : Bytes) :
    (Hash.fromBytes b).hash_string = hexEncode b := rfl

theorem entry_pre_no_nul {m : Mode} {p : Bytes} (hp : ∀ b ∈ p, b ≠ 0) :
    ∀ b ∈ m.code ++ 32 :: p, b ≠ 0 := by
  intro b hb
  rcases List.mem_append.mp hb with h1 | h2
  · exact (Mode.code_props m b h1).1
  · rcases List.mem_cons.mp h2 with rfl | h3
    · omega
    · exact hp b h3

theorem code_no_space (m : Mode) : ∀ b ∈ m.code, b ≠ 32 :=
  fun b hb => (Mode.code_props m b hb).2

/-- Rehydrating any committed entry from a store holding all its files gives
back an object whose materialization is the original entry (with the name
the parent entry recorded). -/
theorem rehyd_entry_correct (d : Bytes → Bytes) (store : Store)
    (files : List (Bytes × Bytes))
    (Hlookup : ∀ p ∈ files, storeLookup store p.1 = some p.2) :
    ∀ e : FsEntry,
      (∀ n ∈ nodesOf (commitEntry d e),
        (n.hashOf.hash_string, n.fileOf) ∈ files) →
      (∀ n ∈ nodesOf (commitEntry d e),
        GoodOut (d n.fileOf) ∧ (∀ b ∈ n.pathOf, b ≠ 0) ∧ n.bodyLenOf < 2 ^ 64) →
      ∀ (mode : Mode) (path : Bytes) (fuel : Nat), depthF e < fuel →
        ∃ ro : TreeObject,
          rehydChild store fuel (commitEntry d e).hashOf mode path = some ro ∧
          writeTreeItem ro = some (e.withName path) := by
  refine fsEntryInduction ?_ ?_
  · -- file entry: a committed blob
    intro name content Hsub Hok mode path fuel hfuel
    have hroot := Hok _ (nodesOf_self (commitEntry d (.file name content)))
    have hmem := Hsub _ (nodesOf_self (commitEntry d (.file name content)))
    have hlk := Hlookup _ hmem
    have hgood : GoodOut (d (get_object_prefix_bytes .blob content.length ++ content)) :=
      hroot.1
    have hlen : content.length < 2 ^ 64 := hroot.2.2
    have hlk2 : storeLookup store
        (hexEncode (d (get_object_prefix_bytes .blob content.length ++ content))) =
        some (get_object_prefix_bytes .blob content.length ++ content) := hlk
    refine ⟨.blobO
      (Hash.fromBytes (d (get_object_prefix_bytes .blob content.length ++ content)))
      ⟨mode, path, get_object_prefix_bytes .blob content.length ++ content,
        content.length⟩, ?_, ?_⟩
    · show rehydChild store fuel
        (Hash.fromBytes (d (get_object_prefix_bytes .blob content.length ++ content)))
        mode path = _
      unfold rehydChild
      rw [fromBytes_hash_string, from_file_spec hlk2 hgood hlen]
      simp only [Option.bind_eq_bind, Option.some_bind]
      rw [to_blob_spec _ mode path content.length content hlen]
      rfl
    · exact writeTreeItem_blob _ mode path content.length content
  · -- directory entry: a committed tree
    intro name es ih Hsub Hok mode path fuel hfuel
    obtain ⟨f, rfl⟩ : ∃ f, fuel = f + 1 := ⟨fuel - 1, by omega⟩
    have hroot := Hok _ (nodesOf_self (commitEntry d (.dir name es)))
    have hmem := Hsub _ (nodesOf_self (commitEntry d (.dir name es)))
    have hlk := Hlookup _ hmem
    have hgood : GoodOut (d (get_object_prefix_bytes .tree
        (Tree.get_body ⟨Mode.tree, name, commitList d es⟩).length ++
        Tree.get_body ⟨Mode.tree, name, commitList d es⟩)) := hroot.1
    have hblen : (Tree.get_body ⟨Mode.tree, name, commitList d es⟩).length < 2 ^ 64 :=
      hroot.2.2
    have hlk2 : storeLookup store
        (hexEncode (d (get_object_prefix_bytes .tree
          (Tree.get_body ⟨Mode.tree, name, commitList d es⟩).length ++
          Tree.get_body ⟨Mode.tree, name, commitList d es⟩))) =
        some (get_object_prefix_bytes .tree
          (Tree.get_body ⟨Mode.tree, name, commitList d es⟩).length ++
          Tree.get_body ⟨Mode.tree, name, commitList d es⟩) := hlk
    -- one loop pass over the committed children
    have hloop : ∀ es2 : List FsEntry, (∀ x ∈ es2, x ∈ es) →
        ∃ ros : List TreeObject,
          to_tree_loop store f
            ((commitList d es2).flatMap TreeObject.to_tree_bytes) = some ros ∧
          writeTreeList ros = some es2 := by
      intro es2
      induction es2 with
      | nil =>
          intro _
          refine ⟨[], ?_, rfl⟩
          rw [show (commitList d []).flatMap TreeObject.to_tree_bytes = [] from rfl]
          rw [to_tree_loop]
          rfl
      | cons e2 rest ihl =>
          intro hsub2
          obtain ⟨ros, hros, hwl⟩ :=
            ihl (fun x hx => hsub2 x (List.mem_cons_of_mem _ hx))
          have he2 : e2 ∈ es := hsub2 e2 (List.mem_cons_self _ _)
          have hchildsub : ∀ n ∈ nodesOf (commitEntry d e2),
              (n.hashOf.hash_string, n.fileOf) ∈ files :=
            fun n hn => Hsub n (nodes_child_sub he2 n hn)
          have hchildok : ∀ n ∈ nodesOf (commitEntry d e2),
              GoodOut (d n.fileOf) ∧ (∀ b ∈ n.pathOf, b ≠ 0) ∧
                n.bodyLenOf < 2 ^ 64 :=
            fun n hn => Hok n (nodes_child_sub he2 n hn)
          have hdepth : depthF e2 < f := by
            have h1 := depthF_le_of_mem he2
            have h2 : depthF (.dir name es) = depthListF es + 1 := rfl
            omega
          obtain ⟨ro, hro, hwi⟩ := ih e2 he2 hchildsub hchildok
            ((commitEntry d e2).modeOf) ((commitEntry d e2).pathOf) f hdepth
          have hcroot := hchildok _ (nodesOf_self (commitEntry d e2))
          have hchash : (commitEntry d e2).hashOf =
              Hash.fromBytes (d (commitEntry d e2).fileOf) :=
            commit_hashOf d e2 _ (nodesOf_self (commitEntry d e2))
          have hlen64 : ((commitEntry d e2).hashOf.hash).length = 64 := by
            rw [hchash, fromBytes_hash]
            exact hcroot.1.1
          have hbody : (commitList d (e2 :: rest)).flatMap TreeObject.to_tree_bytes =
              ((commitEntry d e2).modeOf.code ++ 32 :: (commitEntry d e2).pathOf) ++
                0 :: ((commitEntry d e2).hashOf.hash ++
                  (commitList d rest).flatMap TreeObject.to_tree_bytes) := by
            rw [show commitList d (e2 :: rest) =
              commitEntry d e2 :: commitList d rest from rfl]
            rw [List.flatMap_cons, to_tree_bytes_eq]
            simp
          refine ⟨ro :: ros, ?_, ?_⟩
          · rw [hbody, to_tree_loop]
            rw [read_until_split (entry_pre_no_nul hcroot.2.1)]
            simp only []
            rw [dif_neg (by simp)]
            rw [List.dropLast_concat]
            rw [splitOnce_split (code_no_space _)]
            simp only [Option.bind_eq_bind, Option.some_bind]
            rw [Mode.from_str_code]
            simp only [Option.bind_eq_bind, Option.some_bind]
            rw [dif_neg (by
              rw [List.length_append, hlen64]
              omega)]
            rw [show (64 : Nat) = ((commitEntry d e2).hashOf.hash).length from hlen64.symm]
            rw [List.take_left, List.drop_left]
            rw [show Hash.fromBytes ((commitEntry d e2).hashOf.hash) =
              (commitEntry d e2).hashOf from by rw [hchash, fromBytes_hash]]
            rw [hro]
            simp only [Option.bind_eq_bind, Option.some_bind]
            rw [hros]
            rfl
          · rw [show writeTreeList (ro :: ros) = (do
              let x ← writeTreeItem ro
              let xs ← writeTreeList ros
              pure (x :: xs) : Option (List FsEntry)) from rfl]
            rw [hwi, hwl]
            simp only [Option.bind_eq_bind, Option.some_bind]
            rw [pathOf_commitEntry]
            rfl
    obtain ⟨ros, hros, hwl⟩ := hloop es (fun x hx => hx)
    refine ⟨.treeO (Hash.fromBytes (d (get_object_prefix_bytes .tree
        (Tree.get_body ⟨Mode.tree, name, commitList d es⟩).length ++
        Tree.get_body ⟨Mode.tree, name, commitList d es⟩)))
      mode path ros, ?_, ?_⟩
    · show rehydChild store (f + 1)
        (Hash.fromBytes (d (get_object_prefix_bytes .tree
          (Tree.get_body ⟨Mode.tree, name, commitList d es⟩).length ++
          Tree.get_body ⟨Mode.tree, name, commitList d es⟩)))
        mode path = _
      unfold rehydChild
      rw [fromBytes_hash_string, from_file_spec hlk2 hgood hblen]
      simp only [Option.bind_eq_bind, Option.some_bind]
      rw [CacheObject.to_tree]
      simp only []
      simp only [if_true]
      rw [read_header_prefix_body .tree _ _ hblen]
      simp only [Tree.get_body]
      rw [hros]
      simp only [Option.bind_eq_bind, Option.some_bind]
      rfl
    · show (writeTreeList ros).map (fun sub => FsEntry.dir path sub) = _
      rw [hwl]
      rfl

/-- C1: restore(commit(root)) reproduces the committed directory: committing
`entries` under `rootName` into an empty store and then restoring from the
printed index hash into a fresh destination yields exactly `entries` (same
names, same nesting, byte-identical contents), provided the digest returns
well-formed 64-byte values whose written files are consistent, the timestamp
is free of NUL, newline and whitespace, every object size fits u64, and the
recursion fuel exceeds the nesting depth. -/
theorem c1_commit_restore_round_trip (d : Bytes → Bytes) (now rootName : Bytes)
    (entries : List FsEntry) (fuel : Nat)
    (Hnow : ∀ c ∈ now, isWS c = false ∧ c ≠ 0 ∧ c ≠ 10)
    (Hok : ∀ n ∈ nodesOf (commitEntry d (FsEntry.dir rootName entries)),
      GoodOut (d n.fileOf) ∧ (∀ b ∈ n.pathOf, b ≠ 0) ∧ n.bodyLenOf < 2 ^ 64)
    (HgoodIdx : GoodOut (d (Index.from_path d now rootName entries).write_to))
    (HidxLen : (Index.from_path d now rootName entries).get_body.length < 2 ^ 64)
    (Hcons : filesConsistent (commitFiles d now rootName entries))
    (Hfuel : depthF (FsEntry.dir rootName entries) < fuel) :
    restore_directory (commit_directory d now [] rootName entries).2
      (commit_directory d now [] rootName entries).1.hash_string fuel =
      some entries := by
  have Hlookup : ∀ p ∈ commitFiles d now rootName entries,
      storeLookup (writeAll [] (commitFiles d now rootName entries)) p.1 = some p.2 := by
    intro p hp
    rw [storeLookup_writeAll]
    show lookupAssoc (commitFiles d now rootName entries) p.1 = some p.2
    obtain ⟨k, c⟩ := p
    exact lookupAssoc_of_mem hp Hcons
  have hcf : commitFiles d now rootName entries =
      ((Index.get_hash d (Index.from_path d now rootName entries)).hash_string,
        (Index.from_path d now rootName entries).write_to) ::
        objFiles (commitEntry d (FsEntry.dir rootName entries)) := rfl
  have Hsub : ∀ n ∈ nodesOf (commitEntry d (FsEntry.dir rootName entries)),
      (n.hashOf.hash_string, n.fileOf) ∈ commitFiles d now rootName entries := by
    intro n hn
    rw [hcf]
    refine List.mem_cons_of_mem _ ?_
    rw [objFiles_eq_nodes]
    exact List.mem_map_of_mem _ hn
  have hroot := Hok _ (nodesOf_self (commitEntry d (FsEntry.dir rootName entries)))
  have hgoodT : GoodOut (d (get_object_prefix_bytes .tree
      (Tree.get_body ⟨Mode.tree, rootName, commitList d entries⟩).length ++
      Tree.get_body ⟨Mode.tree, rootName, commitList d entries⟩)) := hroot.1
  have hblenT : (Tree.get_body ⟨Mode.tree, rootName, commitList d entries⟩).length
      < 2 ^ 64 := hroot.2.2
  have hlkT : storeLookup (writeAll [] (commitFiles d now rootName entries))
      (hexEncode (d (get_object_prefix_bytes .tree
        (Tree.get_body ⟨Mode.tree, rootName, commitList d entries⟩).length ++
        Tree.get_body ⟨Mode.tree, rootName, commitList d entries⟩))) =
      some (get_object_prefix_bytes .tree
        (Tree.get_body ⟨Mode.tree, rootName, commitList d entries⟩).length ++
        Tree.get_body ⟨Mode.tree, rootName, commitList d entries⟩) :=
    Hlookup _ (Hsub _ (nodesOf_self _))
  have hcoT := from_file_spec hlkT hgoodT hblenT
  have hlkI : storeLookup (writeAll [] (commitFiles d now rootName entries))
      (hexEncode (d (Index.from_path d now rootName entries).write_to)) =
      some (get_object_prefix_bytes .index
          (Index.from_path d now rootName entries).get_body.length ++
        (Index.from_path d now rootName entries).get_body) :=
    Hlookup _ (by rw [hcf]; exact List.mem_cons_self _ _)
  have hcoI := from_file_spec hlkI HgoodIdx HidxLen
  obtain ⟨ro, hro, hwi⟩ := rehyd_entry_correct d
    (writeAll [] (commitFiles d now rootName entries))
    (commitFiles d now rootName entries) Hlookup
    (FsEntry.dir rootName entries) Hsub Hok Mode.tree [] fuel Hfuel
  have hchash : (commitEntry d (FsEntry.dir rootName entries)).hashOf =
      Hash.fromBytes (d (commitEntry d (FsEntry.dir rootName entries)).fileOf) :=
    commit_hashOf d _ _ (nodesOf_self _)
  unfold rehydChild at hro
  rw [hchash, fromBytes_hash_string] at hro
  rw [show (commitEntry d (FsEntry.dir rootName entries)).fileOf =
      get_object_prefix_bytes .tree
        (Tree.get_body ⟨Mode.tree, rootName, commitList d entries⟩).length ++
        Tree.get_body ⟨Mode.tree, rootName, commitList d entries⟩ from rfl] at hro
  rw [hcoT] at hro
  simp only [Option.bind_eq_bind, Option.some_bind] at hro
  have hro2 : Option.map (fun ht => TreeObject.ofTree ht.hash ht.inner)
      (CacheObject.to_tree (writeAll [] (commitFiles d now rootName entries)) fuel
        ⟨ObjectType.tree,
          ⟨d (get_object_prefix_bytes .tree
              (Tree.get_body ⟨Mode.tree, rootName, commitList d entries⟩).length ++
              Tree.get_body ⟨Mode.tree, rootName, commitList d entries⟩),
            hexEncode (d (get_object_prefix_bytes .tree
              (Tree.get_body ⟨Mode.tree, rootName, commitList d entries⟩).length ++
              Tree.get_body ⟨Mode.tree, rootName, commitList d entries⟩))⟩,
          (Tree.get_body ⟨Mode.tree, rootName, commitList d entries⟩).length,
          get_object_prefix_bytes .tree
            (Tree.get_body ⟨Mode.tree, rootName, commitList d entries⟩).length ++
            Tree.get_body ⟨Mode.tree, rootName, commitList d entries⟩⟩
        Mode.tree []) = some ro := hro
  obtain ⟨ht, hht, hroeq⟩ := Option.map_eq_some'.mp hro2
  rw [← hroeq] at hwi
  have hwi2 : (writeTreeList ht.inner.contents).map
      (fun sub => FsEntry.dir ht.inner.path sub) = some (FsEntry.dir [] entries) := hwi
  obtain ⟨sub, hsubl, hseq⟩ := Option.map_eq_some'.mp hwi2
  have hsubE : sub = entries := by
    injection hseq with h1 h2
  have hwt : write_tree ht.inner = some entries := by
    show writeTreeList ht.inner.contents = some entries
    rw [hsubl, hsubE]
  have hbody : (Index.from_path d now rootName entries).get_body =
      (strBytes ("timestamp: ") ++ now) ++ 10 ::
        (strBytes ("tree: ") ++ hexEncode (d (get_object_prefix_bytes .tree
          (Tree.get_body ⟨Mode.tree, rootName, commitList d entries⟩).length ++
          Tree.get_body ⟨Mode.tree, rootName, commitList d entries⟩))) := by
    show ((strBytes ("timestamp: ") ++ now) ++ strBytes ("\ntree: ")) ++
        hexEncode (d (get_object_prefix_bytes .tree
          (Tree.get_body ⟨Mode.tree, rootName, commitList d entries⟩).length ++
          Tree.get_body ⟨Mode.tree, rootName, commitList d entries⟩)) =
      (strBytes ("timestamp: ") ++ now) ++ 10 ::
        (strBytes ("tree: ") ++ hexEncode (d (get_object_prefix_bytes .tree
          (Tree.get_body ⟨Mode.tree, rootName, commitList d entries⟩).length ++
          Tree.get_body ⟨Mode.tree, rootName, commitList d entries⟩)))
    rw [show strBytes ("\ntree: ") = 10 :: strBytes ("tree: ") from by decide]
    simp
  show restore_directory (writeAll [] (commitFiles d now rootName entries))
    ((Index.get_hash d (Index.from_path d now rootName entries)).hash_string) fuel =
    some entries
  rw [show Index.get_hash d (Index.from_path d now rootName entries) =
    Hash.fromBytes (d (Index.from_path d now rootName entries).write_to) from rfl]
  rw [fromBytes_hash_string]
  unfold restore_directory
  rw [from_str_hexEncode HgoodIdx]
  simp only [Option.bind_eq_bind, Option.some_bind]
  rw [hcoI]
  simp only [Option.bind_eq_bind, Option.some_bind]
  rw [hbody]
  rw [to_index_spec _ fuel _ _ _ _ Hnow (hexEncode_isLowerHex hgoodT.2)]
  rw [from_str_hexEncode hgoodT]
  simp only [Option.bind_eq_bind, Option.some_bind]
  rw [hcoT]
  simp only [Option.bind_eq_bind, Option.some_bind]
  simp only [if_true]
  rw [hht]
  simp only [Option.bind_eq_bind, Option.some_bind, Option.pure_def]
  exact hwt

set_option maxRecDepth 8192 in
/-- C1 witness: the toy digest, the example tree root/{a.txt:"hello",
sub/{b.txt:"world"}}, a concrete RFC3339 timestamp and fuel 4 satisfy every
hypothesis, so commit then restore reproduces the two entries exactly. -/
theorem c1_commit_restore_round_trip_witness :
    restore_directory
      (commit_directory toyDigest (strBytes ("2024-05-01T12:00:00+00:00")) []
        (strBytes ("root"))
        [FsEntry.file (strBytes ("a.txt")) (strBytes ("hello")),
          FsEntry.dir (strBytes ("sub"))
            [FsEntry.file (strBytes ("b.txt")) (strBytes ("world"))]]).2
      (commit_directory toyDigest (strBytes ("2024-05-01T12:00:00+00:00")) []
        (strBytes ("root"))
        [FsEntry.file (strBytes ("a.txt")) (strBytes ("hello")),
          FsEntry.dir (strBytes ("sub"))
            [FsEntry.file (strBytes ("b.txt")) (strBytes ("world"))]]).1.hash_string
      4 =
    some [FsEntry.file (strBytes ("a.txt")) (strBytes ("hello")),
      FsEntry.dir (strBytes ("sub"))
        [FsEntry.file (strBytes ("b.txt")) (strBytes ("world"))]] :=
  c1_commit_restore_round_trip toyDigest (strBytes ("2024-05-01T12:00:00+00:00"))
    (strBytes ("root"))
    [FsEntry.file (strBytes ("a.txt")) (strBytes ("hello")),
      FsEntry.dir (strBytes ("sub"))
        [FsEntry.file (strBytes ("b.txt")) (strBytes ("world"))]]
    4 (by decide) (by unfold GoodOut; decide) (by unfold GoodOut; decide)
    (by decide) (by unfold filesConsistent; decide) (by decide)

set_option maxRecDepth 8192 in
/-- C8 counterexample: 128 uppercase As and 128 lowercase as are both
accepted by hash parsing and decode to the same 64 raw bytes, yet they give
different shard parts and different paths, so equal raw bytes do not
determine the on-disk location for every accepted textual form. -/
theorem c8_uppercase_counterexample :
    (Hash.from_string (List.replicate 128 65)).isSome = true ∧
    Option.map Hash.hash (Hash.from_string (List.replicate 128 65)) =
      Option.map Hash.hash (Hash.from_string (List.replicate 128 97)) ∧
    Option.map Hash.get_parts (Hash.from_string (List.replicate 128 65)) ≠
      Option.map Hash.get_parts (Hash.from_string (List.replicate 128 97)) ∧
    Option.map (fun h => Hash.get_path h []) (Hash.from_string (List.replicate 128 65)) ≠
      Option.map (fun h => Hash.get_path h []) (Hash.from_string (List.replicate 128 97)) := by
  refine ⟨by decide, by decide, by decide, by decide⟩

end AR
